import Mathlib

/-!
Verification development for the `ciroach` local CI pipeline executor.

The Lean definitions below are a shallow embedding of the Rust sources:

* `src/models/reports.rs`  — report value types (`StepStatus`, `StepReport`,
  `StageReport`, `PipelineReport` and their `is_success` methods);
* `src/models/raw.rs`      — the pipeline compiler (`RawPipeline::compile`,
  `RawStep::memory_limit`, matrix expansion);
* `src/runner/stage.rs`    — the stage scheduler (`StageRunner::run`,
  `dispatch_ready_steps`, `can_start`, `finalize_report`);
* `src/runner/step.rs`     — the step executor retry loop (`StepRunner::run`);
* `src/runner/pipeline.rs` — the pipeline orchestrator (`PipelineRunner::run`,
  `pre_pull_images`, `skip_stage`).

Modelling conventions:

* Rust `i64` is modelled as `Int`; the decoder's parse step checks the
  signed-64-bit bounds exactly as `str::parse::<i64>` does.  The final
  `value * multiplier` product is taken in `Int` (an `i64` overflow there
  would wrap in release builds / panic in debug builds; the claims never
  touch that region).
* `String` operations are modelled on `List Char`.  `to_lowercase` and the
  whitespace classes are modelled on their ASCII behaviour.
* `tokio` concurrency is modelled by explicit state passing plus oracle
  functions: the order in which in-flight step reports arrive, the status a
  step run produces, engine successes/failures and cancellation observations
  are all oracle parameters, so every theorem quantifies over all
  interleavings the abstraction can express.
* Wall-clock time is out of scope: every `elapsed` field is 0.
* `models/config.rs` declares `max_retries`/`timeout` fields on `Step` which
  `RawPipeline::compile` never initialises (the module is not wired into the
  crate root in this snapshot); the step-runner model therefore takes
  `max_retries` as an explicit parameter and per-attempt timeouts appear as
  an oracle outcome.
-/

/-! ## Report types (src/models/reports.rs) -/

inductive StepStatus where
  | Success
  | Failed
  | Cancelled
  | Skipped
deriving DecidableEq, Repr

structure StepReport where
  name : String
  status : StepStatus
  retries : Nat
  elapsed : Nat
deriving DecidableEq, Repr

def StepReport.success (name : String) (retries : Nat) (elapsed : Nat) : StepReport :=
  { name := name, status := .Success, retries := retries, elapsed := elapsed }

def StepReport.failed (name : String) (retries : Nat) (elapsed : Nat) : StepReport :=
  { name := name, status := .Failed, retries := retries, elapsed := elapsed }

def StepReport.cancelled (name : String) (retries : Nat) (elapsed : Nat) : StepReport :=
  { name := name, status := .Cancelled, retries := retries, elapsed := elapsed }

def StepReport.skipped (name : String) : StepReport :=
  { name := name, status := .Skipped, retries := 0, elapsed := 0 }

structure StageReport where
  step_reports : List StepReport
deriving DecidableEq, Repr

def StageReport.is_success (sr : StageReport) : Bool :=
  sr.step_reports.all (fun r => !decide (r.status = .Failed))

/-- `PipelineReport` from src/models/reports.rs.  The `logs` map (log
multiplexer output) is out of scope and omitted; `is_success` only reads
`stage_reports`, exactly as the source does. -/
structure PipelineReport where
  stage_reports : List StageReport
deriving DecidableEq, Repr

def PipelineReport.is_success (p : PipelineReport) : Bool :=
  ((p.stage_reports.map (fun sr => sr.step_reports)).flatten).all
    (fun r => !decide (r.status = .Failed))

instance {ε α : Type _} [DecidableEq ε] [DecidableEq α] : DecidableEq (Except ε α) := by
  intro a b
  cases a <;> cases b
  case error.error e f =>
    exact if h : e = f then .isTrue (by rw [h]) else .isFalse (fun hh => by cases hh; exact h rfl)
  case error.ok e x => exact .isFalse (fun hh => by cases hh)
  case ok.error x e => exact .isFalse (fun hh => by cases hh)
  case ok.ok x y =>
    exact if h : x = y then .isTrue (by rw [h]) else .isFalse (fun hh => by cases hh; exact h rfl)

/-! ## Compiled pipeline types (src/models/config.rs, fields set by compile) -/

structure Step where
  name : String
  exploded_name : String
  image : String
  memory : Int
  needs : List String
  env : Option (List String)
  command : String
deriving DecidableEq, Repr

structure Stage where
  name : String
  steps : List Step
deriving DecidableEq, Repr

structure Pipeline where
  stages : List Stage
deriving DecidableEq, Repr

/-! ## String helpers for the memory decoder and matrix substitution -/

/-- ASCII projection of the whitespace class used by Rust `str::trim` and the
regex class in matrix patterns (the additional Unicode whitespace code
points are out of scope). -/
def isWS (c : Char) : Bool :=
  c = ' ' || c = '\t' || c = '\n' || c = '\r' || c = '\x0b' || c = '\x0c'

/-- ASCII projection of Rust `str::to_lowercase`. -/
def lowerChars (s : String) : List Char :=
  s.data.map Char.toLower

/-- `str::trim`: drop whitespace from both ends. -/
def trimChars (s : List Char) : List Char :=
  ((s.dropWhile (fun c => isWS c)).reverse.dropWhile (fun c => isWS c)).reverse

/-- One step of Rust `str::replace(pat, "")`: remove the leftmost,
non-overlapping occurrences of `pat` (the source uses `replace` with an
empty replacement to strip memory suffixes, so *every* occurrence is
removed, not only the trailing one). -/
def removeAllAux (pat : List Char) : Nat → List Char → List Char
  | 0, s => s
  | _ + 1, [] => []
  | fuel + 1, c :: rest =>
    if pat.isPrefixOf (c :: rest) then
      removeAllAux pat fuel ((c :: rest).drop pat.length)
    else
      c :: removeAllAux pat fuel rest

def removeAll (pat s : List Char) : List Char :=
  removeAllAux pat s.length s

/-- Rust `str::parse::<i64>`: optional sign, one or more ASCII digits, value
within the signed 64-bit range. -/
def parseI64 (s : List Char) : Option Int :=
  let sd : Int × List Char :=
    match s with
    | '+' :: r => (1, r)
    | '-' :: r => (-1, r)
    | r => (1, r)
  if sd.2 = [] then none
  else if sd.2.all (fun c => c.isDigit) then
    let v : Int := sd.1 * (sd.2.foldl (fun acc c => acc * 10 + (c.toNat - '0'.toNat)) 0 : Nat)
    if -(2 ^ 63) ≤ v ∧ v ≤ 2 ^ 63 - 1 then some v else none
  else none

def squote : String := String.singleton (Char.ofNat 39)

def DEFAULT_MEMORY_LIMIT : Int := 512 * 1024 * 1024

def invalidMemMsg (digits : List Char) : String :=
  "Invalid memory format: " ++ squote ++ String.mk digits ++ squote ++ ". Use "
    ++ squote ++ "512mb" ++ squote ++ " or " ++ squote ++ "1gb" ++ squote

/-- The `(digits, multiplier)` pair computed by `RawStep::memory_limit`
(src/models/raw.rs lines 103-111): lowercase, test the suffix with
`ends_with`, and strip it with `replace(suffix, "")` — i.e. every
occurrence of the suffix is removed. -/
def memoryDigits (raw : String) : List Char × Int :=
  let mem := lowerChars raw
  if ['g', 'b'].isSuffixOf mem then (removeAll ['g', 'b'] mem, 1024 * 1024 * 1024)
  else if ['m', 'b'].isSuffixOf mem then (removeAll ['m', 'b'] mem, 1024 * 1024)
  else if ['k', 'b'].isSuffixOf mem then (removeAll ['k', 'b'] mem, 1024)
  else (mem, 1)

/-- `RawStep::memory_limit` (src/models/raw.rs lines 97-118), factored over
the optional memory string. -/
def parse_memory : Option String → Except String Int
  | none => .ok DEFAULT_MEMORY_LIMIT
  | some raw =>
    let dm := memoryDigits raw
    match parseI64 (trimChars dm.1) with
    | some v => .ok (v * dm.2)
    | none => .error (invalidMemMsg dm.1)

/-- Spec-side shallow definition used only for the refinement comparison in
claim C6.  Modelled from the spec: "If it ends in gb/mb/kb, strip that
suffix" — i.e. remove only the trailing suffix, instead of the source's
`replace`-all. -/
def specStripSuffix (raw : String) : List Char :=
  let mem := lowerChars raw
  if ['g', 'b'].isSuffixOf mem then mem.dropLast.dropLast
  else if ['m', 'b'].isSuffixOf mem then mem.dropLast.dropLast
  else if ['k', 'b'].isSuffixOf mem then mem.dropLast.dropLast
  else mem

example : parse_memory (some "1gb") = .ok 1073741824 := by decide
example : parse_memory (some "512mb") = .ok 536870912 := by decide
example : parse_memory (some "1024kb") = .ok 1048576 := by decide
example : parse_memory (some "2048") = .ok 2048 := by decide
example : parse_memory none = .ok 536870912 := by decide
example : parse_memory (some "1gbgb") = .ok 1073741824 := by decide
example : parse_memory (some "0") = .ok 0 := by decide
example : parse_memory (some "-3") = .ok (-3) := by decide
example : parse_memory (some " 1 gb") = .ok 1073741824 := by decide
example : parse_memory (some "zz") = .error (invalidMemMsg ['z', 'z']) := by decide

/-! ## Matrix substitution (src/models/raw.rs lines 37-51)

The source builds the regex `\$\{\{\s*<escaped variable>\s*\}\}` and calls
`Regex::replace_all(text, val)`.  Two library behaviours matter:

* matching: leftmost, non-overlapping occurrences of
  `"${{" whitespace* variable whitespace* "}}"` (the variable is
  regex-escaped, hence matched literally);
* the replacement string is *expanded*, not inserted literally: `$$` is a
  literal `$`, `$0`/`${0}` denotes the whole match, and a reference to any
  other (non-existent) capture group expands to the empty string.  This is
  the documented behaviour of `Regex::replace_all` with a `&str` replacer.
-/

/-- Try to match the token `"${{" \s* var \s* "}}"` at the head of `s`;
return the remainder after the token.  Whitespace is consumed greedily,
which coincides with the regex when `var` neither starts nor ends with a
whitespace character. -/
def matchToken (varN : List Char) (s : List Char) : Option (List Char) :=
  match s with
  | '$' :: '\x7b' :: '\x7b' :: rest =>
    let r1 := rest.dropWhile (fun c => isWS c)
    if varN.isPrefixOf r1 then
      match (r1.drop varN.length).dropWhile (fun c => isWS c) with
      | '\x7d' :: '\x7d' :: r3 => some r3
      | _ => none
    else none
  | _ => none

def isRefChar (c : Char) : Bool := c.isAlphanum || c = '_'

/-- Expansion of the replacement string against a match, for a pattern with
no capture groups (the matrix pattern has none): `$$` is a literal `$`,
`$0` (plain or braced) is the whole matched text, any other reference is
the empty string, and a `$` not followed by a reference is literal. -/
def expandRepl (matched : List Char) : Nat → List Char → List Char
  | 0, r => r
  | _ + 1, [] => []
  | fuel + 1, c :: rest =>
    if c = '$' then
      match rest with
      | '$' :: r2 => '$' :: expandRepl matched fuel r2
      | '\x7b' :: r2 =>
        let nm := r2.takeWhile (fun ch => ch ≠ '\x7d')
        match r2.drop nm.length with
        | '\x7d' :: r3 => (if nm = ['0'] then matched else []) ++ expandRepl matched fuel r3
        | _ => '$' :: '\x7b' :: expandRepl matched fuel r2
      | _ =>
        let nm := rest.takeWhile (fun ch => isRefChar ch)
        if nm = [] then '$' :: expandRepl matched fuel rest
        else (if nm = ['0'] then matched else []) ++ expandRepl matched fuel (rest.drop nm.length)
    else c :: expandRepl matched fuel rest

/-- `Regex::replace_all` over the matrix token: scan left to right; at a
match, emit the expansion of `val` against the matched text and continue
after it. -/
def substAux (varN val : List Char) : Nat → List Char → List Char
  | 0, s => s
  | _ + 1, [] => []
  | fuel + 1, c :: rest =>
    match matchToken varN (c :: rest) with
    | some r3 =>
      let matched := (c :: rest).take ((c :: rest).length - r3.length)
      expandRepl matched val.length val ++ substAux varN val fuel r3
    | none => c :: substAux varN val fuel rest

def substSource (varN val s : String) : String :=
  String.mk (substAux varN.data val.data s.data.length s.data)

/-- Spec-side substitution used only for the refinement comparison in claim
C7.  Modelled from the spec: "substituting every literal occurrence of
`${{ variable }}` (allowing surrounding whitespace inside braces) ... with
the value" — the value is inserted literally. -/
def substSpecAux (varN val : List Char) : Nat → List Char → List Char
  | 0, s => s
  | _ + 1, [] => []
  | fuel + 1, c :: rest =>
    match matchToken varN (c :: rest) with
    | some r3 => val ++ substSpecAux varN val fuel r3
    | none => c :: substSpecAux varN val fuel rest

def substSpecLiteral (varN val s : String) : String :=
  String.mk (substSpecAux varN.data val.data s.data.length s.data)

/-! ## Raw pipeline and the compiler (src/models/raw.rs) -/

structure MatrixConfig where
  varName : String
  values : List String
deriving DecidableEq, Repr

structure RawStep where
  image : String
  command : String
  memory : Option String
  needs : Option (List String)
  env : Option (List String)
  matrix : Option MatrixConfig
deriving DecidableEq, Repr

def RawStep.memory_limit (cfg : RawStep) : Except String Int :=
  parse_memory cfg.memory

/-- `RawStage.steps` is a `BTreeMap<String, RawStep>`: modelled as an
association list in iteration (= ascending key) order; well-formedness
(pairwise distinct keys) is a hypothesis where a theorem needs it. -/
structure RawStage where
  steps : List (String × RawStep)
deriving DecidableEq, Repr

structure RawPipeline where
  stages_order : List String
  stages : List (String × RawStage)
deriving DecidableEq, Repr

/-- `BTreeMap::get`. -/
def btreeGet (m : List (String × RawStage)) (k : String) : Option RawStage :=
  (m.find? (fun kv => kv.1 == k)).map (fun kv => kv.2)

/-- One matrix instance (loop body of src/models/raw.rs lines 41-51). -/
def mkMatrixStep (id : String) (cfg : RawStep) (mtx : MatrixConfig) (mem : Int)
    (v : String) : Step :=
  { name := id
    exploded_name := id ++ "-" ++ v
    image := substSource mtx.varName v cfg.image
    memory := mem
    needs := cfg.needs.getD []
    env := cfg.env
    command := substSource mtx.varName v cfg.command }

/-- The matrix loop: one `Step` per value, in order; `memory_limit` is
re-evaluated for each value (as in the source), so its error aborts at the
first value. -/
def compileMatrixSteps (id : String) (cfg : RawStep) (mtx : MatrixConfig) :
    List String → Except String (List Step)
  | [] => .ok []
  | v :: vs =>
    match cfg.memory_limit with
    | .error e => .error e
    | .ok mem =>
      match compileMatrixSteps id cfg mtx vs with
      | .error e => .error e
      | .ok rest => .ok (mkMatrixStep id cfg mtx mem v :: rest)

/-- Instances produced for one raw step (src/models/raw.rs lines 36-63). -/
def compileStepInstances (id : String) (cfg : RawStep) : Except String (List Step) :=
  match cfg.matrix with
  | some mtx => compileMatrixSteps id cfg mtx mtx.values
  | none =>
    match cfg.memory_limit with
    | .error e => .error e
    | .ok mem =>
      .ok [{ name := id
             exploded_name := id
             image := cfg.image
             memory := mem
             needs := cfg.needs.getD []
             env := cfg.env
             command := cfg.command }]

/-- The per-stage step loop (insertion order of the `BTreeMap`). -/
def compileSteps : List (String × RawStep) → Except String (List Step)
  | [] => .ok []
  | (id, cfg) :: rest =>
    match compileStepInstances id cfg with
    | .error e => .error e
    | .ok instances =>
      match compileSteps rest with
      | .error e => .error e
      | .ok restSteps => .ok (instances ++ restSteps)

/-- The stage loop of `RawPipeline::compile`: stages in `stages_order`;
missing or empty stages are skipped (with a printed warning, out of
scope). -/
def compileStages (stages : List (String × RawStage)) :
    List String → Except String (List Stage)
  | [] => .ok []
  | stageName :: rest =>
    match btreeGet stages stageName with
    | none => compileStages stages rest
    | some rawStage =>
      if rawStage.steps.isEmpty then compileStages stages rest
      else
        match compileSteps rawStage.steps with
        | .error e => .error e
        | .ok steps =>
          match compileStages stages rest with
          | .error e => .error e
          | .ok restStages => .ok ({ name := stageName, steps := steps } :: restStages)

/-- `RawPipeline::compile` (src/models/raw.rs lines 17-78). -/
def RawPipeline.compile (p : RawPipeline) : Except String Pipeline :=
  match compileStages p.stages p.stages_order with
  | .error e => .error e
  | .ok final_stages =>
    if final_stages.isEmpty then
      .error "No valid stages or steps found to execute."
    else
      .ok { stages := final_stages }

example : substSource "v" "8" "a-$\x7b\x7bv\x7d\x7d-b" = "a-8-b" := by decide
example : substSource "v" "8" "$\x7b\x7b v \x7d\x7d$\x7b\x7bv\x7d\x7d" = "88" := by decide
example : substSource "v" "$0" "$\x7b\x7bv\x7d\x7d" = "$\x7b\x7bv\x7d\x7d" := by decide
example : substSource "v" "$$" "$\x7b\x7bv\x7d\x7d" = "$" := by decide
example : substSpecLiteral "v" "$0" "$\x7b\x7bv\x7d\x7d" = "$0" := by decide

/-! ## Stage scheduler (src/runner/stage.rs)

`StageRunner::run` is an async loop over a `StageState` plus an mpsc results
channel.  The embedding threads the state explicitly; the cancellation token
is a `Bool` field (set, never cleared).  Two oracles capture the scheduling
nondeterminism: `dOr t` selects which in-flight step's report arrives at
delivery `t` (taken modulo the number of in-flight steps), and
`sOr t` / `rOr t` give that report's status and retry count (a `StepRunner`
always reports under its step's `exploded_name`, so the name is forced).
Per src/runner/step.rs line 88, a runner sets the shared token exactly when
it returns a `Failed` report, so a delivery with status `Failed` sets the
token. -/

structure SchedState where
  started : List String
  completed : List String
  reports : List StepReport
  pending : List Step
  token : Bool
deriving DecidableEq, Repr

def initSchedState (tok : Bool) : SchedState :=
  { started := [], completed := [], reports := [], pending := [], token := tok }

/-- `StageRunner::can_start` (src/runner/stage.rs lines 113-121). -/
def can_start (stage : Stage) (step : Step) (completed : List String) : Bool :=
  step.needs.all (fun b =>
    (stage.steps.filter (fun s => s.name == b)).all
      (fun s => decide (s.exploded_name ∈ completed)))

/-- Body of the `dispatch_ready_steps` loop for one step. -/
def dispatchStep (stage : Stage) (st : SchedState) (step : Step) : SchedState :=
  if step.exploded_name ∈ st.started then st
  else if can_start stage step st.completed then
    { st with
        started := st.started ++ [step.exploded_name]
        pending := st.pending ++ [step] }
  else st

def dispatchAux (stage : Stage) (l : List Step) (st : SchedState) : SchedState :=
  l.foldl (dispatchStep stage) st

/-- `StageRunner::dispatch_ready_steps` (src/runner/stage.rs lines 83-111):
scan all steps in order; spawning a task = appending to `pending`. -/
def dispatch_ready_steps (stage : Stage) (st : SchedState) : SchedState :=
  dispatchAux stage stage.steps st

def deadlockMsg (stageName : String) : String :=
  "Deadlock detected in stage " ++ squote ++ stageName ++ squote
    ++ "! Check your " ++ squote ++ "needs" ++ squote ++ " configuration."

/-- `StageRunner::finalize_report` (src/runner/stage.rs lines 123-143). -/
def finalize_report (stage : Stage) (st : SchedState) : StageReport :=
  let finished := st.reports.map (fun r => r.name)
  { step_reports :=
      st.reports ++ stage.steps.filterMap (fun step =>
        if step.exploded_name ∈ finished then none
        else if step.exploded_name ∈ st.started then
          some (StepReport.failed step.exploded_name 0 0)
        else
          some (StepReport.skipped step.exploded_name)) }

/-- The break/deadlock decision of the run loop (src/runner/stage.rs lines
56-70), evaluated after the dispatch pass.  `none` means "block on the
results channel". -/
def stageCheck (stage : Stage) (st : SchedState) :
    Option (Except String (StageReport × Bool)) :=
  if st.started.length = st.completed.length then
    if st.token || st.started.length = stage.steps.length then
      some (.ok (finalize_report stage st, st.token))
    else
      some (.error (deadlockMsg stage.name))
  else
    none

/-- The `loop` of `StageRunner::run` (src/runner/stage.rs lines 51-78).  One
iteration: dispatch if not cancelled; apply the break/deadlock checks;
otherwise receive one in-flight report (`recv` on an empty closed channel —
the `else break` arm — maps to the `pending = []` case, which the loop
invariants make unreachable).  Receiving a `Failed` report sets the token
(src/runner/step.rs line 88).  Each iteration that recurses consumes one
in-flight report, so `stage.steps.length + 1` fuel is enough. -/
def stageLoop (stage : Stage) (dOr : Nat → Nat) (sOr : Nat → StepStatus)
    (rOr : Nat → Nat) : Nat → Nat → SchedState → Except String (StageReport × Bool)
  | 0, _, _ => .error "out of fuel"
  | fuel + 1, t, st =>
    let st1 := if st.token then st else dispatch_ready_steps stage st
    match stageCheck stage st1 with
    | some out => out
    | none =>
      match st1.pending with
      | [] => .ok (finalize_report stage st1, st1.token)
      | p :: ps =>
        let i := dOr t % (p :: ps).length
        let step := (p :: ps).get ⟨i, Nat.mod_lt _ (Nat.succ_pos _)⟩
        let rep : StepReport :=
          { name := step.exploded_name, status := sOr t, retries := rOr t, elapsed := 0 }
        let st2 : SchedState :=
          { started := st1.started
            completed :=
              if rep.name ∈ st1.completed then st1.completed
              else st1.completed ++ [rep.name]
            reports := st1.reports ++ [rep]
            pending := (p :: ps).eraseIdx i
            token := st1.token || decide (rep.status = .Failed) }
        stageLoop stage dOr sOr rOr fuel (t + 1) st2

/-- `StageRunner::run` for a whole stage, starting from the shared token
value `tok0`. -/
def stageRun (stage : Stage) (dOr : Nat → Nat) (sOr : Nat → StepStatus)
    (rOr : Nat → Nat) (tok0 : Bool) : Except String (StageReport × Bool) :=
  stageLoop stage dOr sOr rOr (stage.steps.length + 1) 0 (initSchedState tok0)

/-- The loop invariants of `StageRunner::run`: `started` tracks exactly the
names in `completed` plus those of the in-flight (`pending`) steps, with no
duplicates anywhere, the report list carries exactly the completed names in
order, and everything started belongs to the stage. -/
structure SchedInv (stage : Stage) (st : SchedState) : Prop where
  counts : st.started.length = st.completed.length + st.pending.length
  repNames : st.reports.map (fun r => r.name) = st.completed
  disj : ∀ x ∈ st.pending.map (fun s => s.exploded_name), x ∉ st.completed
  pnodup : (st.pending.map (fun s => s.exploded_name)).Nodup
  smem : ∀ x, x ∈ st.started ↔
    x ∈ st.completed ∨ x ∈ st.pending.map (fun s => s.exploded_name)
  snodup : st.started.Nodup
  cnodup : st.completed.Nodup
  ssub : ∀ x ∈ st.started, x ∈ stage.steps.map (fun s => s.exploded_name)

/-! ## Step executor retry loop (src/runner/step.rs)

One attempt (`execute_attempt` + `execute`) ends in one of four ways,
supplied by the oracle `oc`:

* `finished e o` — the container ran to inspection with exit state
  `{ exit_code := e, oom_killed := o }`;
* `engineError`  — `run_container` / `stream_logs` / `get_exit_state`
  returned an error;
* `timedOut`     — the per-attempt timeout fired;
* `tokenCancelled` — the `select!` saw the cancellation token (which implies
  the token is set, so the `Err("Cancelled") && token.is_cancelled()` arm of
  `run` matches).

`tokObs k` is the token value observed at the retry check after attempt `k`
fails, and `slCancel k` tells whether the token fires during the backoff
sleep after attempt `k` fails.  The model also returns the list of attempt
outcomes that actually occurred (ghost trace), in order. -/

inductive AttemptOutcome where
  | finished (exit_code : Option Int) (oom_killed : Option Bool)
  | engineError
  | timedOut
  | tokenCancelled
deriving DecidableEq, Repr

/-- The success criterion of `StepRunner::execute` (src/runner/step.rs lines
145-162): the attempt succeeds iff `oom_killed != Some(true)` and
`exit_code == Some(0)`. -/
def attemptGood : AttemptOutcome → Bool
  | .finished e o => decide (e = some 0) && !decide (o = some true)
  | _ => false

/-- The `Err` continuation of the retry loop (src/runner/step.rs lines
69-94): retry with backoff while `attempts < max_retries` and the token is
unset (the backoff sleep races the token); otherwise cancel the shared
token and report `Failed`. -/
def stepFailCont (name : String) (maxRetries : Nat) (tokObs slCancel : Nat → Bool)
    (attempts : Nat) (out : AttemptOutcome)
    (next : List AttemptOutcome × StepReport) : List AttemptOutcome × StepReport :=
  if attempts < maxRetries ∧ tokObs attempts = false then
    if slCancel attempts then
      ([out], StepReport.cancelled name (attempts + 1) 0)
    else
      (out :: next.1, next.2)
  else
    ([out], StepReport.failed name attempts 0)

def runStepAux (name : String) (maxRetries : Nat) (oc : Nat → AttemptOutcome)
    (tokObs slCancel : Nat → Bool) :
    Nat → Nat → List AttemptOutcome × StepReport
  | 0, attempts => ([], StepReport.failed name attempts 0)
  | fuel + 1, attempts =>
    match oc attempts with
    | .tokenCancelled => ([.tokenCancelled], StepReport.cancelled name attempts 0)
    | .finished e o =>
      if o = some true ∨ e ≠ some 0 then
        stepFailCont name maxRetries tokObs slCancel attempts (.finished e o)
          (runStepAux name maxRetries oc tokObs slCancel fuel (attempts + 1))
      else
        ([.finished e o], StepReport.success name attempts 0)
    | .engineError =>
      stepFailCont name maxRetries tokObs slCancel attempts .engineError
        (runStepAux name maxRetries oc tokObs slCancel fuel (attempts + 1))
    | .timedOut =>
      stepFailCont name maxRetries tokObs slCancel attempts .timedOut
        (runStepAux name maxRetries oc tokObs slCancel fuel (attempts + 1))

/-- `StepRunner::run` (src/runner/step.rs lines 41-97): the loop makes at
most `max_retries + 1` attempts. -/
def runStepModel (name : String) (maxRetries : Nat) (oc : Nat → AttemptOutcome)
    (tokObs slCancel : Nat → Bool) : List AttemptOutcome × StepReport :=
  runStepAux name maxRetries oc tokObs slCancel (maxRetries + 1) 0

/-! ## Pipeline orchestrator (src/runner/pipeline.rs) -/

/-- `PipelineRunner::skip_stage` (src/runner/pipeline.rs lines 72-80). -/
def skip_stage (stage : Stage) : StageReport :=
  { step_reports := stage.steps.map (fun s => StepReport.skipped s.exploded_name) }

/-- The result of one spawned pull task (src/runner/pipeline.rs lines
96-112): the task returns the pull result (after updating the progress UI,
out of scope). -/
def pullResult (pullOk : String → Bool) (img : String) : Except String Unit :=
  if pullOk img then .ok () else .error ("Failed to pull image " ++ img)

/-- `futures_util::future::try_join_all` over the spawned `JoinHandle`s: it
fails only when a *join* fails (task panic), not when a task's returned
value is an `Err`.  The model has no panics, so every join is `.ok`. -/
def tryJoinAll {α : Type} : List (Except String α) → Except String (List α)
  | [] => .ok []
  | x :: xs =>
    match x with
    | .error e => .error e
    | .ok v =>
      match tryJoinAll xs with
      | .error e => .error e
      | .ok vs => .ok (v :: vs)

/-- `PipelineRunner::pre_pull_images` (src/runner/pipeline.rs lines 82-120):
collect the stage's unique images, spawn one pull task per image, then
`try_join_all(pull_tasks).await?`.  Each `JoinHandle` joins successfully
(carrying the pull's `Result` as its *value*), so the `?` never fires and
the per-image pull results are discarded. -/
def pre_pull_images (pullOk : String → Bool) (stage : Stage) : Except String Unit :=
  if ((stage.steps.map (fun s => s.image)).dedup).isEmpty then .ok ()
  else
    match tryJoinAll (((stage.steps.map (fun s => s.image)).dedup).map
        (fun img => Except.ok (pullResult pullOk img))) with
    | .error e => .error e
    | .ok _ => .ok ()

/-- The stage loop of `PipelineRunner::run` (src/runner/pipeline.rs lines
43-62), with the report list built by cons instead of push.  `i` is the
stage index (used to index the per-stage oracles), `tok` the shared token:
a cancelled token short-circuits the stage to all-Skipped; otherwise
pre-pull, run the stage (both `?`-propagating), and cancel the token if the
stage report is not a success. -/
def pipelineGo (pullOk : String → Bool) (dOr : Nat → Nat → Nat)
    (sOr : Nat → Nat → StepStatus) (rOr : Nat → Nat → Nat) :
    List Stage → Nat → Bool → Except String (List StageReport)
  | [], _, _ => .ok []
  | stage :: rest, i, tok =>
    if tok then
      match pipelineGo pullOk dOr sOr rOr rest (i + 1) tok with
      | .ok rs => .ok (skip_stage stage :: rs)
      | .error e => .error e
    else
      match pre_pull_images pullOk stage with
      | .error e => .error e
      | .ok _ =>
        match stageRun stage (dOr i) (sOr i) (rOr i) tok with
        | .error e => .error e
        | .ok (rep, tokOut) =>
          let tok2 := tokOut || !rep.is_success
          match pipelineGo pullOk dOr sOr rOr rest (i + 1) tok2 with
          | .ok rs => .ok (rep :: rs)
          | .error e => .error e

/-- `PipelineRunner::run` on a compiled pipeline; the token starts unset
(SIGINT handling is out of scope). -/
def pipelineRun (p : Pipeline) (pullOk : String → Bool) (dOr : Nat → Nat → Nat)
    (sOr : Nat → Nat → StepStatus) (rOr : Nat → Nat → Nat) :
    Except String PipelineReport :=
  match pipelineGo pullOk dOr sOr rOr p.stages 0 false with
  | .ok rs => .ok { stage_reports := rs }
  | .error e => .error e

/-- Modelled from the spec: the process exit path is absent from src (the
snapshot's `main.rs` does not call `PipelineRunner`).  Spec section 7:
"ConfigError and DeadlockError abort the run and surface as non-zero
process exit"; section 6.3: "Exit code 0 on full success; 1 on any step
Failed". -/
def processExitCode : Except String PipelineReport → Nat
  | .error _ => 1
  | .ok rep => if rep.is_success then 0 else 1

/-! ## Concrete fixtures used by witnesses and counterexamples -/

def rawStepBase : RawStep :=
  { image := "img", command := "cmd", memory := none, needs := none,
    env := none, matrix := none }

def stepLit (nm ex : String) (needs : List String) : Step :=
  { name := nm, exploded_name := ex, image := "img", memory := DEFAULT_MEMORY_LIMIT,
    needs := needs, env := none, command := "cmd" }

/-- C1 fixture: two stages, the single step of the first fails. -/
def pC1 : Pipeline :=
  { stages := [ { name := "one", steps := [stepLit "a" "a" []] },
                { name := "two", steps := [stepLit "b" "b" []] } ] }

def sOrC1 : Nat → Nat → StepStatus := fun i _ => if i = 0 then .Failed else .Success

def repC1 : PipelineReport :=
  { stage_reports := [ { step_reports := [StepReport.failed "a" 0 0] },
                       { step_reports := [StepReport.skipped "b"] } ] }

example :
    pipelineRun pC1 (fun _ => true) (fun _ _ => 0) sOrC1 (fun _ _ => 0) = .ok repC1 := by
  decide

/-- C2 fixture: matrix fan-out `test-18`/`test-20` with a dependent `pub`. -/
def stageC2 : Stage :=
  { name := "t",
    steps := [ stepLit "test" "test-18" [], stepLit "test" "test-20" [],
               stepLit "pub" "pub" ["test"] ] }

example : can_start stageC2 (stepLit "pub" "pub" ["test"]) ["test-18"] = false := by decide
example :
    can_start stageC2 (stepLit "pub" "pub" ["test"]) ["test-18", "test-20"] = true := by
  decide
example :
    (dispatch_ready_steps stageC2 (initSchedState false)).started = ["test-18", "test-20"] := by
  decide

/-- C3 fixture (spec scenario S7): steps `x` and `y` needing each other. -/
def rawC3 : RawPipeline :=
  { stages_order := ["s"],
    stages := [("s", { steps := [ ("x", { rawStepBase with needs := some ["y"] }),
                                  ("y", { rawStepBase with needs := some ["x"] }) ] })] }

def stageXY : Stage :=
  { name := "s", steps := [stepLit "x" "x" ["y"], stepLit "y" "y" ["x"]] }

def pC3 : Pipeline := { stages := [stageXY] }

example : rawC3.compile = .ok pC3 := by decide
example :
    pipelineRun pC3 (fun _ => true) (fun _ _ => 0) (fun _ _ => .Success) (fun _ _ => 0)
      = .error (deadlockMsg "s") := by
  decide

/-- C5 fixture: a stage whose image pull fails. -/
def stageC5 : Stage := { name := "b", steps := [stepLit "a" "a" []] }

def pullC5 : String → Bool := fun _ => false

example : pre_pull_images pullC5 stageC5 = .ok () := by decide
example :
    pipelineRun { stages := [stageC5] } pullC5 (fun _ _ => 0) (fun _ _ => .Failed)
        (fun _ _ => 0)
      = .ok { stage_reports := [ { step_reports := [StepReport.failed "a" 0 0] } ] } := by
  decide

/-- C7 counterexample fixture: a matrix value containing `$0`. -/
def rawC7 : RawPipeline :=
  { stages_order := ["s"],
    stages := [("s", { steps := [ ("a", { rawStepBase with
        image := "$\x7b\x7bv\x7d\x7d",
        matrix := some { varName := "v", values := ["$0"] } }) ] })] }

example :
    (rawC7.compile.map (fun pl => pl.stages.map (fun st => st.steps.map (fun s => s.image))))
      = .ok [["$\x7b\x7bv\x7d\x7d"]] := by
  decide

/-- C8 counterexample fixture: duplicate matrix values. -/
def rawC8 : RawPipeline :=
  { stages_order := ["s"],
    stages := [("s", { steps := [ ("a", { rawStepBase with
        matrix := some { varName := "v", values := ["x", "x"] } }) ] })] }

example :
    (rawC8.compile.map (fun pl =>
        pl.stages.map (fun st => st.steps.map (fun s => s.exploded_name))))
      = .ok [["a-x", "a-x"]] := by
  decide

/-- C9 counterexample fixture: declared memory `"0"`. -/
def rawC9 : RawPipeline :=
  { stages_order := ["s"],
    stages := [("s", { steps := [("a", { rawStepBase with memory := some "0" })] })] }

example :
    (rawC9.compile.map (fun pl => pl.stages.map (fun st => st.steps.map (fun s => s.memory))))
      = .ok [[0]] := by
  decide

/-- C10 fixture: a `needs` entry naming no step of the stage. -/
def rawC10 : RawPipeline :=
  { stages_order := ["g"],
    stages := [("g", { steps := [("a", { rawStepBase with needs := some ["ghost"] })] })] }

def stageC10 : Stage := { name := "g", steps := [stepLit "a" "a" ["ghost"]] }

example : rawC10.compile = .ok { stages := [stageC10] } := by decide
example : (dispatch_ready_steps stageC10 (initSchedState false)).started = ["a"] := by decide
example :
    stageRun stageC10 (fun _ => 0) (fun _ => .Success) (fun _ => 0) false
      = .ok ({ step_reports := [StepReport.success "a" 0 0] }, false) := by
  decide

/-- Decidable form of "the declared memory string (if any) denotes a
positive value": used as the hypothesis of the amended claim C9. -/
def memPosB (cfg : RawStep) : Bool :=
  match cfg.memory_limit with
  | .ok m => decide (0 < m)
  | .error _ => true

/-! ## General list helpers -/

theorem map_eraseIdx_comm {α β : Type _} (f : α → β) :
    ∀ (l : List α) (i : Nat), (l.eraseIdx i).map f = (l.map f).eraseIdx i
  | [], _ => by simp
  | _ :: _, 0 => by simp
  | a :: l, i + 1 => by
    simp only [List.eraseIdx_cons_succ, List.map_cons]
    rw [map_eraseIdx_comm f l i]

theorem get_not_mem_eraseIdx_of_nodup {α : Type _} (l : List α) (hnd : l.Nodup)
    (i : Nat) (h : i < l.length) : l.get ⟨i, h⟩ ∉ l.eraseIdx i := by
  intro hmem
  rw [List.get_eq_getElem] at hmem
  rcases List.mem_eraseIdx_iff_getElem.mp hmem with ⟨j, hj, hji, hje⟩
  exact hji (hnd.getElem_inj_iff.mp hje)

theorem mem_eraseIdx_of_mem_ne_get {α : Type _} (l : List α) (i : Nat)
    (h : i < l.length) (x : α) (hx : x ∈ l) (hne : x ≠ l.get ⟨i, h⟩) :
    x ∈ l.eraseIdx i := by
  rcases List.mem_iff_getElem.mp hx with ⟨j, hj, hje⟩
  refine List.mem_eraseIdx_iff_getElem.mpr ⟨j, hj, ?_, hje⟩
  intro hji
  subst hji
  exact hne (by rw [List.get_eq_getElem]; exact hje.symm)

/-! ## Claim C6 — the memory decoder -/

/-- Claim C6 counterexample.  The claim requires an error for every input
whose numeric part is not a valid `i64` after lowercasing, trimming and
*suffix stripping*.  For `"1gbgb"` the suffix-stripped remainder `"1gb"` is
not a valid integer, yet `memory_limit` returns `Ok(1073741824)`: the
source strips with `replace("gb", "")`, which removes *every* occurrence of
the suffix, leaving `"1"`. -/
theorem c6_counterexample :
    parseI64 (trimChars (specStripSuffix "1gbgb")) = none
    ∧ parse_memory (some "1gbgb") = .ok 1073741824 := by
  constructor
  · decide
  · decide

/-- Claim C6 (amended): the decoder maps `"1gb"`, `"512mb"`, `"1024kb"`,
`"2048"` and a missing string as the claim states; and for every input
whose remaining numeric part is not a valid signed 64-bit integer after
lowercasing, removal of **all occurrences** of the matched suffix (the
source uses `replace(suffix, "")`, not a suffix strip), and trimming, it
returns an error naming the offending value. -/
theorem c6_memory_decoder_amended (raw : String)
    (h : parseI64 (trimChars (memoryDigits raw).1) = none) :
    parse_memory (some "1gb") = .ok 1073741824
    ∧ parse_memory (some "512mb") = .ok 536870912
    ∧ parse_memory (some "1024kb") = .ok 1048576
    ∧ parse_memory (some "2048") = .ok 2048
    ∧ parse_memory none = .ok 536870912
    ∧ parse_memory (some raw) = .error (invalidMemMsg (memoryDigits raw).1) := by
  refine ⟨by decide, by decide, by decide, by decide, by decide, ?_⟩
  simp only [parse_memory, h]

theorem c6_witness :
    parseI64 (trimChars (memoryDigits "zz").1) = none
    ∧ parse_memory (some "zz") = .error (invalidMemMsg (memoryDigits "zz").1) :=
  ⟨by decide, (c6_memory_decoder_amended "zz" (by decide)).2.2.2.2.2⟩

/-! ## Compiler inversion lemmas -/

theorem compileMatrixSteps_cons_ok {id : String} {cfg : RawStep} {mtx : MatrixConfig}
    {v : String} {vs : List String} {l : List Step}
    (h : compileMatrixSteps id cfg mtx (v :: vs) = .ok l) :
    ∃ mem rest, cfg.memory_limit = .ok mem
      ∧ compileMatrixSteps id cfg mtx vs = .ok rest
      ∧ l = mkMatrixStep id cfg mtx mem v :: rest := by
  unfold compileMatrixSteps at h
  cases hml : cfg.memory_limit with
  | error e => rw [hml] at h; simp at h
  | ok mem =>
    rw [hml] at h
    cases hrest : compileMatrixSteps id cfg mtx vs with
    | error e => rw [hrest] at h; simp at h
    | ok rest =>
      rw [hrest] at h
      simp only [Except.ok.injEq] at h
      exact ⟨mem, rest, rfl, rfl, h.symm⟩

theorem compileMatrixSteps_mem_memory {id : String} {cfg : RawStep} {mtx : MatrixConfig} :
    ∀ (vs : List String) (l : List Step), compileMatrixSteps id cfg mtx vs = .ok l →
      ∀ s ∈ l, cfg.memory_limit = .ok s.memory
  | [], l, h => by
    simp only [compileMatrixSteps, Except.ok.injEq] at h
    subst h
    intro s hs
    simp at hs
  | v :: vs, l, h => by
    obtain ⟨mem, rest, hml, hrest, rfl⟩ := compileMatrixSteps_cons_ok h
    intro s hs
    rcases List.mem_cons.mp hs with rfl | hs'
    · simpa [mkMatrixStep] using hml
    · exact compileMatrixSteps_mem_memory vs rest hrest s hs'

theorem compileStepInstances_mem_memory {id : String} {cfg : RawStep} {l : List Step}
    (h : compileStepInstances id cfg = .ok l) :
    ∀ s ∈ l, cfg.memory_limit = .ok s.memory := by
  unfold compileStepInstances at h
  cases hmx : cfg.matrix with
  | some mtx => rw [hmx] at h; exact compileMatrixSteps_mem_memory _ _ h
  | none =>
    rw [hmx] at h
    cases hml : cfg.memory_limit with
    | error e => rw [hml] at h; simp at h
    | ok mem =>
      rw [hml] at h
      simp only [Except.ok.injEq] at h
      subst h
      intro s hs
      simp only [List.mem_singleton] at hs
      subst hs
      exact rfl

theorem compileSteps_mem_memory :
    ∀ (steps : List (String × RawStep)) (l : List Step), compileSteps steps = .ok l →
      ∀ s ∈ l, ∃ kv, kv ∈ steps ∧ (kv : String × RawStep).2.memory_limit = .ok s.memory
  | [], l, h => by
    simp only [compileSteps, Except.ok.injEq] at h
    subst h
    intro s hs
    simp at hs
  | (id, cfg) :: rest, l, h => by
    unfold compileSteps at h
    cases hinst : compileStepInstances id cfg with
    | error e => rw [hinst] at h; simp at h
    | ok instances =>
      rw [hinst] at h
      cases hrest : compileSteps rest with
      | error e => rw [hrest] at h; simp at h
      | ok restSteps =>
        rw [hrest] at h
        simp only [Except.ok.injEq] at h
        subst h
        intro s hs
        rcases List.mem_append.mp hs with hl | hr
        · exact ⟨(id, cfg), List.mem_cons_self _ _,
            compileStepInstances_mem_memory hinst s hl⟩
        · obtain ⟨kv, hkv, hml⟩ := compileSteps_mem_memory rest restSteps hrest s hr
          exact ⟨kv, List.mem_cons_of_mem _ hkv, hml⟩

theorem btreeGet_mem {stages : List (String × RawStage)} {k : String} {raw : RawStage}
    (h : btreeGet stages k = some raw) : ∃ key, (key, raw) ∈ stages := by
  unfold btreeGet at h
  cases hf : stages.find? (fun kv => kv.1 == k) with
  | none => rw [hf] at h; simp at h
  | some kv =>
    rw [hf] at h
    simp only [Option.map] at h
    have hv : kv.2 = raw := by simpa using h
    exact ⟨kv.1, by rw [← hv]; simpa using List.mem_of_find?_eq_some hf⟩

theorem compileStages_mem {stages : List (String × RawStage)} :
    ∀ (order : List String) (sts : List Stage), compileStages stages order = .ok sts →
      ∀ st ∈ sts, ∃ rawSt, (∃ k, (k, rawSt) ∈ stages)
        ∧ compileSteps rawSt.steps = .ok st.steps
  | [], sts, h => by
    simp only [compileStages, Except.ok.injEq] at h
    subst h
    intro st hst
    simp at hst
  | stageName :: rest, sts, h => by
    unfold compileStages at h
    split at h
    next hget => exact compileStages_mem rest sts h
    next rawStage hget =>
      split at h
      · exact compileStages_mem rest sts h
      · split at h
        next e hsteps => simp at h
        next steps hsteps =>
          split at h
          next e hrest => simp at h
          next restStages hrest =>
            simp only [Except.ok.injEq] at h
            subst h
            intro st hst
            rcases List.mem_cons.mp hst with rfl | hst'
            · exact ⟨rawStage, btreeGet_mem hget, hsteps⟩
            · exact compileStages_mem rest restStages hrest st hst'

theorem compile_stages_mem {p : RawPipeline} {pl : Pipeline} (h : p.compile = .ok pl) :
    ∀ st ∈ pl.stages, ∃ rawSt, (∃ k, (k, rawSt) ∈ p.stages)
      ∧ compileSteps rawSt.steps = .ok st.steps := by
  unfold RawPipeline.compile at h
  split at h
  next e hcs => simp at h
  next final_stages hcs =>
    split at h
    · simp at h
    · simp only [Except.ok.injEq] at h
      subst h
      exact compileStages_mem _ _ hcs

/-! ## Substitution lemmas for claim C7 -/

theorem expandRepl_no_dollar {matched : List Char} :
    ∀ (fuel : Nat) (v : List Char), (∀ c ∈ v, c ≠ '$') →
      expandRepl matched fuel v = v
  | 0, v, _ => rfl
  | _ + 1, [], _ => rfl
  | fuel + 1, c :: rest, hv => by
    have hc : c ≠ '$' := hv c (List.mem_cons_self _ _)
    simp only [expandRepl, if_neg hc]
    rw [expandRepl_no_dollar fuel rest (fun x hx => hv x (List.mem_cons_of_mem _ hx))]

theorem substAux_eq_spec {varN val : List Char} (hval : ∀ c ∈ val, c ≠ '$') :
    ∀ (fuel : Nat) (s : List Char),
      substAux varN val fuel s = substSpecAux varN val fuel s
  | 0, s => rfl
  | _ + 1, [] => rfl
  | fuel + 1, c :: rest => by
    cases hmt : matchToken varN (c :: rest) with
    | none =>
      simp only [substAux, substSpecAux, hmt]
      rw [substAux_eq_spec hval fuel rest]
    | some r3 =>
      simp only [substAux, substSpecAux, hmt]
      rw [expandRepl_no_dollar _ val hval, substAux_eq_spec hval fuel r3]

theorem compileMatrixSteps_length {id : String} {cfg : RawStep} {mtx : MatrixConfig} :
    ∀ (vs : List String) (l : List Step), compileMatrixSteps id cfg mtx vs = .ok l →
      l.length = vs.length
  | [], l, h => by
    simp only [compileMatrixSteps, Except.ok.injEq] at h
    subst h
    rfl
  | v :: vs, l, h => by
    obtain ⟨mem, rest, _, hrest, rfl⟩ := compileMatrixSteps_cons_ok h
    simp [compileMatrixSteps_length vs rest hrest]

theorem compileMatrixSteps_get {id : String} {cfg : RawStep} {mtx : MatrixConfig} :
    ∀ (vs : List String) (l : List Step), compileMatrixSteps id cfg mtx vs = .ok l →
      ∀ (i : Nat) (hi : i < l.length) (hv : i < vs.length),
        ∃ mem, cfg.memory_limit = .ok mem
          ∧ l.get ⟨i, hi⟩ = mkMatrixStep id cfg mtx mem (vs.get ⟨i, hv⟩)
  | [], _, _, i, _, hv => absurd hv (by simp)
  | v :: vs, l, h, i, hi, hv => by
    obtain ⟨mem, rest, hml, hrest, rfl⟩ := compileMatrixSteps_cons_ok h
    cases i with
    | zero => exact ⟨mem, hml, rfl⟩
    | succ i =>
      have hi' : i < rest.length := by simpa using hi
      have hv' : i < vs.length := by simpa using hv
      obtain ⟨mem2, hml2, hget⟩ := compileMatrixSteps_get vs rest hrest i hi' hv'
      exact ⟨mem2, hml2, by simpa using hget⟩

/-! ## Claim C7 — matrix expansion -/

/-- Claim C7 counterexample.  For a matrix value containing `$`, the source
does not substitute the value literally: `Regex::replace_all` expands `$0`
to the entire match, so image `"${{v}}"` with value `"$0"` compiles to
`"${{v}}"`, not to `"$0"` as the claim requires. -/
theorem c7_counterexample :
    (rawC7.compile.map (fun pl => pl.stages.map (fun st => st.steps.map (fun s => s.image))))
      = .ok [["$\x7b\x7bv\x7d\x7d"]]
    ∧ "$\x7b\x7bv\x7d\x7d" ≠ "$0" := by
  constructor
  · decide
  · decide

/-- Claim C7 (amended): a raw step with a matrix of N values compiles to
exactly N Step instances, one per value in order, each with
`exploded_name = name-value` and the `needs` list carried through
unchanged; `image` and `command` have every occurrence of
`${{ variable }}` (whitespace allowed inside the braces) replaced by the
*regex replacement expansion* of the value — which equals the value itself
whenever the value contains no `$` character; a raw step without a matrix
produces exactly one instance with `exploded_name` equal to its declared
name. -/
theorem c7_matrix_expansion_amended :
    (∀ (id : String) (cfg : RawStep) (mtx : MatrixConfig) (l : List Step),
       cfg.matrix = some mtx → compileStepInstances id cfg = .ok l →
       l.length = mtx.values.length
       ∧ ∀ (i : Nat) (hi : i < l.length) (hv : i < mtx.values.length),
           (l.get ⟨i, hi⟩).exploded_name = id ++ "-" ++ mtx.values.get ⟨i, hv⟩
           ∧ (l.get ⟨i, hi⟩).needs = cfg.needs.getD []
           ∧ (l.get ⟨i, hi⟩).image
               = substSource mtx.varName (mtx.values.get ⟨i, hv⟩) cfg.image
           ∧ (l.get ⟨i, hi⟩).command
               = substSource mtx.varName (mtx.values.get ⟨i, hv⟩) cfg.command)
    ∧ (∀ (varN val s : String), (∀ c ∈ val.data, c ≠ '$') →
         substSource varN val s = substSpecLiteral varN val s)
    ∧ (∀ (id : String) (cfg : RawStep) (l : List Step),
       cfg.matrix = none → compileStepInstances id cfg = .ok l →
       l.map (fun st => st.exploded_name) = [id]
       ∧ ∀ st ∈ l, st.needs = cfg.needs.getD []
           ∧ st.image = cfg.image ∧ st.command = cfg.command) := by
  refine ⟨?_, ?_, ?_⟩
  · intro id cfg mtx l hmx h
    rw [compileStepInstances, hmx] at h
    refine ⟨compileMatrixSteps_length _ _ h, ?_⟩
    intro i hi hv
    obtain ⟨mem, _, hget⟩ := compileMatrixSteps_get _ _ h i hi hv
    rw [hget]
    exact ⟨rfl, rfl, rfl, rfl⟩
  · intro varN val s hval
    unfold substSource substSpecLiteral
    rw [substAux_eq_spec hval]
  · intro id cfg l hmx h
    rw [compileStepInstances, hmx] at h
    cases hml : cfg.memory_limit with
    | error e => rw [hml] at h; simp at h
    | ok mem =>
      rw [hml] at h
      simp only [Except.ok.injEq] at h
      subst h
      refine ⟨rfl, ?_⟩
      intro st hst
      simp only [List.mem_singleton] at hst
      subst hst
      exact ⟨rfl, rfl, rfl⟩

theorem c7_witness :
    substSource "v" "8" "$\x7b\x7bv\x7d\x7d" = substSpecLiteral "v" "8" "$\x7b\x7bv\x7d\x7d" :=
  c7_matrix_expansion_amended.2.1 "v" "8" "$\x7b\x7bv\x7d\x7d" (by decide)

/-! ## Claim C8 — exploded-name uniqueness -/

theorem compileStepInstances_nomatrix_names {id : String} {cfg : RawStep} {l : List Step}
    (hmx : cfg.matrix = none) (h : compileStepInstances id cfg = .ok l) :
    l.map (fun st => st.exploded_name) = [id] := by
  rw [compileStepInstances, hmx] at h
  cases hml : cfg.memory_limit with
  | error e => rw [hml] at h; simp at h
  | ok mem =>
    rw [hml] at h
    simp only [Except.ok.injEq] at h
    subst h
    rfl

theorem compileSteps_nomatrix_names :
    ∀ (steps : List (String × RawStep)) (l : List Step),
      (∀ sv ∈ steps, (sv : String × RawStep).2.matrix = none) →
      compileSteps steps = .ok l →
      l.map (fun st => st.exploded_name) = steps.map (fun sv => sv.1)
  | [], l, _, h => by
    simp only [compileSteps, Except.ok.injEq] at h
    subst h
    rfl
  | (id, cfg) :: rest, l, hm, h => by
    unfold compileSteps at h
    cases hinst : compileStepInstances id cfg with
    | error e => rw [hinst] at h; simp at h
    | ok instances =>
      rw [hinst] at h
      cases hrest : compileSteps rest with
      | error e => rw [hrest] at h; simp at h
      | ok restSteps =>
        rw [hrest] at h
        simp only [Except.ok.injEq] at h
        subst h
        have h1 := compileStepInstances_nomatrix_names
          (hm (id, cfg) (List.mem_cons_self _ _)) hinst
        have h2 := compileSteps_nomatrix_names rest restSteps
          (fun sv hsv => hm sv (List.mem_cons_of_mem _ hsv)) hrest
        simp [h1, h2]

/-- Claim C8 counterexample.  Compilation succeeds on a step whose matrix
values repeat (`["x", "x"]`), producing two instances that share the
exploded name `"a-x"` within one stage; the compiler performs no
uniqueness check. -/
theorem c8_counterexample :
    (rawC8.compile.map (fun pl =>
        pl.stages.map (fun st => st.steps.map (fun s => s.exploded_name))))
      = .ok [["a-x", "a-x"]]
    ∧ ¬ (["a-x", "a-x"] : List String).Nodup := by
  constructor
  · decide
  · decide

/-- Claim C8 (amended): exploded names are unique within each stage for
every successfully compiled `RawPipeline` whose step maps are well-formed
(pairwise-distinct keys, as a `BTreeMap` guarantees) and in which no step
carries a matrix.  With matrices the property can fail: duplicate matrix
values (or colliding `name-value` concatenations) yield duplicate exploded
names, as the counterexample shows. -/
theorem c8_unique_names_amended (p : RawPipeline) (pl : Pipeline)
    (hk : ∀ kv ∈ p.stages, ((kv : String × RawStage).2.steps.map (fun sv => sv.1)).Nodup)
    (hm : ∀ kv ∈ p.stages, ∀ sv ∈ (kv : String × RawStage).2.steps, sv.2.matrix = none)
    (hc : p.compile = .ok pl) :
    ∀ stage ∈ pl.stages, (stage.steps.map (fun s => s.exploded_name)).Nodup := by
  intro stage hst
  obtain ⟨rawSt, ⟨k, hkm⟩, hsteps⟩ := compile_stages_mem hc stage hst
  rw [compileSteps_nomatrix_names rawSt.steps stage.steps
    (fun sv hsv => hm (k, rawSt) hkm sv hsv) hsteps]
  exact hk (k, rawSt) hkm

theorem c8_witness :
    ((stageXY.steps.map (fun s => s.exploded_name)).Nodup) :=
  c8_unique_names_amended rawC3 pC3 (by decide) (by decide) (by decide) stageXY (by decide)

/-! ## Claim C9 — memory positivity -/

/-- Claim C9 counterexample.  A declared memory string `"0"` parses to 0, so
compilation succeeds with `memory_bytes = 0`, violating the claimed
invariant `memory_bytes > 0`; the compiler performs no positivity check
(negative values such as `"-3"` pass through as well). -/
theorem c9_counterexample :
    (rawC9.compile.map (fun pl => pl.stages.map (fun st => st.steps.map (fun s => s.memory))))
      = .ok [[0]]
    ∧ ¬ ((0 : Int) > 0) := by
  constructor
  · decide
  · decide

/-- Claim C9 (amended): every step of a successfully compiled pipeline has
`memory_bytes > 0` *provided* every declared memory string (where present)
decodes to a positive value; the default for an absent string is 512 MiB.
The compiler itself enforces no positivity, as the counterexample shows. -/
theorem c9_memory_positive_amended (p : RawPipeline) (pl : Pipeline)
    (hmem : ∀ kv ∈ p.stages, ∀ sv ∈ (kv : String × RawStage).2.steps, memPosB sv.2 = true)
    (hc : p.compile = .ok pl) :
    ∀ stage ∈ pl.stages, ∀ s ∈ stage.steps, 0 < s.memory := by
  intro stage hst s hs
  obtain ⟨rawSt, ⟨k, hkm⟩, hsteps⟩ := compile_stages_mem hc stage hst
  obtain ⟨kv, hkv, hml⟩ := compileSteps_mem_memory rawSt.steps stage.steps hsteps s hs
  have hpos := hmem (k, rawSt) hkm kv hkv
  unfold memPosB at hpos
  rw [hml] at hpos
  simpa using hpos

theorem c9_witness : 0 < (stepLit "a" "a" ["ghost"]).memory :=
  c9_memory_positive_amended rawC10 { stages := [stageC10] } (by decide) (by decide)
    stageC10 (by decide) (stepLit "a" "a" ["ghost"]) (by decide)

/-! ## Scheduler dispatch lemmas (claims C2, C10) -/

theorem can_start_iff (stage : Stage) (step : Step) (completed : List String) :
    can_start stage step completed = true ↔
      ∀ b ∈ step.needs, ∀ s ∈ stage.steps, s.name = b → s.exploded_name ∈ completed := by
  unfold can_start
  simp only [List.all_eq_true, List.mem_filter, beq_iff_eq, decide_eq_true_eq]
  constructor
  · intro h b hb s hs hname
    exact h b hb s ⟨hs, hname⟩
  · intro h b hb s hsf
    exact h b hb s hsf.1 hsf.2

theorem dispatchStep_completed (stage : Stage) (st : SchedState) (step : Step) :
    (dispatchStep stage st step).completed = st.completed := by
  unfold dispatchStep
  split
  · rfl
  · split <;> rfl

theorem dispatchStep_reports (stage : Stage) (st : SchedState) (step : Step) :
    (dispatchStep stage st step).reports = st.reports := by
  unfold dispatchStep
  split
  · rfl
  · split <;> rfl

theorem dispatchStep_token (stage : Stage) (st : SchedState) (step : Step) :
    (dispatchStep stage st step).token = st.token := by
  unfold dispatchStep
  split
  · rfl
  · split <;> rfl

theorem mem_dispatchStep_started (stage : Stage) (st : SchedState) (step : Step)
    (x : String) :
    x ∈ (dispatchStep stage st step).started ↔
      x ∈ st.started
        ∨ (x = step.exploded_name ∧ can_start stage step st.completed = true) := by
  unfold dispatchStep
  by_cases h1 : step.exploded_name ∈ st.started
  · rw [if_pos h1]
    constructor
    · exact Or.inl
    · rintro (hx | ⟨rfl, _⟩)
      · exact hx
      · exact h1
  · rw [if_neg h1]
    by_cases h2 : can_start stage step st.completed = true
    · rw [if_pos h2]
      simp only [List.mem_append, List.mem_singleton]
      constructor
      · rintro (hx | hx)
        · exact Or.inl hx
        · exact Or.inr ⟨hx, h2⟩
      · rintro (hx | ⟨rfl, _⟩)
        · exact Or.inl hx
        · exact Or.inr rfl
    · rw [if_neg h2]
      constructor
      · exact Or.inl
      · rintro (hx | ⟨_, hc⟩)
        · exact hx
        · exact absurd hc h2

theorem dispatchAux_cons (stage : Stage) (s : Step) (l : List Step) (st : SchedState) :
    dispatchAux stage (s :: l) st = dispatchAux stage l (dispatchStep stage st s) := rfl

theorem dispatchAux_completed (stage : Stage) :
    ∀ (l : List Step) (st : SchedState), (dispatchAux stage l st).completed = st.completed
  | [], _ => rfl
  | s :: l, st => by
    rw [dispatchAux_cons, dispatchAux_completed stage l, dispatchStep_completed]

theorem dispatchAux_reports (stage : Stage) :
    ∀ (l : List Step) (st : SchedState), (dispatchAux stage l st).reports = st.reports
  | [], _ => rfl
  | s :: l, st => by
    rw [dispatchAux_cons, dispatchAux_reports stage l, dispatchStep_reports]

theorem dispatchAux_token (stage : Stage) :
    ∀ (l : List Step) (st : SchedState), (dispatchAux stage l st).token = st.token
  | [], _ => rfl
  | s :: l, st => by
    rw [dispatchAux_cons, dispatchAux_token stage l, dispatchStep_token]

theorem mem_dispatchAux_started (stage : Stage) :
    ∀ (l : List Step) (st : SchedState) (x : String),
      x ∈ (dispatchAux stage l st).started ↔
        x ∈ st.started
          ∨ ∃ s ∈ l, s.exploded_name = x ∧ can_start stage s st.completed = true
  | [], st, x => by simp [dispatchAux]
  | s :: l, st, x => by
    rw [dispatchAux_cons,
      mem_dispatchAux_started stage l (dispatchStep stage st s) x,
      dispatchStep_completed, mem_dispatchStep_started]
    simp only [List.mem_cons]
    constructor
    · rintro ((hx | ⟨rfl, hc⟩) | ⟨t, ht, hex, hc⟩)
      · exact Or.inl hx
      · exact Or.inr ⟨s, Or.inl rfl, rfl, hc⟩
      · exact Or.inr ⟨t, Or.inr ht, hex, hc⟩
    · rintro (hx | ⟨t, ht | ht, hex, hc⟩)
      · exact Or.inl (Or.inl hx)
      · subst ht
        exact Or.inl (Or.inr ⟨hex.symm, hc⟩)
      · exact Or.inr ⟨t, ht, hex, hc⟩

/-- Claim C2: in `dispatch_ready_steps`, a not-yet-started step is started
exactly when `can_start` holds, i.e. when for every base name `b` in its
`needs`, every step instance of the stage whose `name` equals `b` is in the
completed set; a step depending on a matrix-exploded base name therefore
waits for all of its instances (illustrated on the `test-18`/`test-20`/
`pub` stage). -/
theorem c2_dispatch_iff :
    (∀ (stage : Stage) (st : SchedState) (step : Step),
       (stage.steps.map (fun s => s.exploded_name)).Nodup →
       step ∈ stage.steps →
       (step.exploded_name ∈ (dispatch_ready_steps stage st).started ↔
         step.exploded_name ∈ st.started ∨ can_start stage step st.completed = true))
    ∧ (∀ (stage : Stage) (step : Step) (completed : List String),
        can_start stage step completed = true ↔
          ∀ b ∈ step.needs, ∀ s ∈ stage.steps, s.name = b → s.exploded_name ∈ completed)
    ∧ can_start stageC2 (stepLit "pub" "pub" ["test"]) ["test-18"] = false
    ∧ can_start stageC2 (stepLit "pub" "pub" ["test"]) ["test-18", "test-20"] = true
    ∧ (dispatch_ready_steps stageC2 (initSchedState false)).started
        = ["test-18", "test-20"] := by
  refine ⟨?_, can_start_iff, by decide, by decide, by decide⟩
  intro stage st step hnd hmem
  unfold dispatch_ready_steps
  rw [mem_dispatchAux_started]
  constructor
  · rintro (hx | ⟨s, hs, hex, hc⟩)
    · exact Or.inl hx
    · have : s = step := List.inj_on_of_nodup_map hnd hs hmem hex
      subst this
      exact Or.inr hc
  · rintro (hx | hc)
    · exact Or.inl hx
    · exact Or.inr ⟨step, hmem, rfl, hc⟩

theorem c2_witness :
    (stepLit "pub" "pub" ["test"]).exploded_name
        ∈ (dispatch_ready_steps stageC2 (initSchedState false)).started ↔
      (stepLit "pub" "pub" ["test"]).exploded_name ∈ (initSchedState false).started
        ∨ can_start stageC2 (stepLit "pub" "pub" ["test"]) (initSchedState false).completed
            = true :=
  c2_dispatch_iff.1 stageC2 (initSchedState false) (stepLit "pub" "pub" ["test"])
    (by decide) (by decide)

/-- Claim C10: a `needs` entry whose base name matches no step of the stage
is vacuously satisfied — `can_start` holds whenever every needs entry
either matches no step or has all matching instances completed — so such a
step is dispatched on the first scan; the compiler performs no validation
of `needs` names (the `ghost` fixture compiles), and the stage run
completes with the step's report instead of an error or a deadlock. -/
theorem c10_unknown_needs_vacuous :
    (∀ (stage : Stage) (step : Step) (completed : List String),
       (∀ b ∈ step.needs,
          (∀ s ∈ stage.steps, s.name ≠ b) ∨
          (∀ s ∈ stage.steps, s.name = b → s.exploded_name ∈ completed)) →
       can_start stage step completed = true)
    ∧ rawC10.compile = .ok { stages := [stageC10] }
    ∧ (dispatch_ready_steps stageC10 (initSchedState false)).started = ["a"]
    ∧ stageRun stageC10 (fun _ => 0) (fun _ => .Success) (fun _ => 0) false
        = .ok ({ step_reports := [StepReport.success "a" 0 0] }, false) := by
  refine ⟨?_, by decide, by decide, by decide⟩
  intro stage step completed h
  rw [can_start_iff]
  intro b hb s hs hname
  rcases h b hb with hnone | hall
  · exact absurd hname (hnone s hs)
  · exact hall s hs hname

theorem c10_witness :
    can_start stageC10 (stepLit "a" "a" ["ghost"]) [] = true :=
  c10_unknown_needs_vacuous.1 stageC10 (stepLit "a" "a" ["ghost"]) [] (by decide)

/-! ## Step executor lemmas (claim C4) -/

theorem attemptGood_finished_iff (e : Option Int) (o : Option Bool) :
    attemptGood (.finished e o) = true ↔ e = some 0 ∧ o ≠ some true := by
  simp [attemptGood]

theorem stepFailCont_cases (name : String) (maxR : Nat) (tokObs slCancel : Nat → Bool)
    (attempts : Nat) (out : AttemptOutcome) (next : List AttemptOutcome × StepReport) :
    stepFailCont name maxR tokObs slCancel attempts out next = (out :: next.1, next.2)
    ∨ ((stepFailCont name maxR tokObs slCancel attempts out next).2.status ≠ .Success
        ∧ (stepFailCont name maxR tokObs slCancel attempts out next).1 = [out]) := by
  unfold stepFailCont
  split
  · split
    · right
      exact ⟨by simp [StepReport.cancelled], rfl⟩
    · left
      rfl
  · right
    exact ⟨by simp [StepReport.failed], rfl⟩

theorem runStepAux_spec (name : String) (maxR : Nat) (oc : Nat → AttemptOutcome)
    (tokObs slCancel : Nat → Bool) :
    ∀ (fuel attempts : Nat),
      ((runStepAux name maxR oc tokObs slCancel fuel attempts).2.status = .Success ↔
        ∃ e o, AttemptOutcome.finished e o
            ∈ (runStepAux name maxR oc tokObs slCancel fuel attempts).1
          ∧ e = some 0 ∧ o ≠ some true)
      ∧ ((runStepAux name maxR oc tokObs slCancel fuel attempts).2.status = .Success →
          attemptGood (oc (runStepAux name maxR oc tokObs slCancel fuel attempts).2.retries)
            = true)
  | 0, attempts => by
    constructor
    · simp [runStepAux, StepReport.failed]
    · intro h
      simp [runStepAux, StepReport.failed] at h
  | fuel + 1, attempts => by
    have IH := runStepAux_spec name maxR oc tokObs slCancel fuel (attempts + 1)
    cases hoc : oc attempts with
    | tokenCancelled =>
      constructor
      · simp [runStepAux, hoc, StepReport.cancelled]
      · intro h
        simp [runStepAux, hoc, StepReport.cancelled] at h
    | finished e o =>
      by_cases hbad : o = some true ∨ e ≠ some 0
      · have hgood_false : attemptGood (.finished e o) = false := by
          rw [← Bool.not_eq_true, attemptGood_finished_iff]
          tauto
        have hrw : runStepAux name maxR oc tokObs slCancel (fuel + 1) attempts
            = stepFailCont name maxR tokObs slCancel attempts (.finished e o)
                (runStepAux name maxR oc tokObs slCancel fuel (attempts + 1)) := by
          simp only [runStepAux, hoc, if_pos hbad]
        rw [hrw]
        rcases stepFailCont_cases name maxR tokObs slCancel attempts (.finished e o)
            (runStepAux name maxR oc tokObs slCancel fuel (attempts + 1)) with hc | ⟨hns, htr⟩
        · rw [hc]
          constructor
          · rw [IH.1]
            simp only [List.mem_cons]
            constructor
            · rintro ⟨e2, o2, hm, he, ho⟩
              exact ⟨e2, o2, Or.inr hm, he, ho⟩
            · rintro ⟨e2, o2, heq | hm, he, ho⟩
              · cases heq
                rw [← Bool.not_eq_true, attemptGood_finished_iff] at hgood_false
                exact absurd ⟨he, ho⟩ hgood_false
              · exact ⟨e2, o2, hm, he, ho⟩
          · exact IH.2
        · constructor
          · constructor
            · intro h
              exact absurd h hns
            · rintro ⟨e2, o2, hm, he, ho⟩
              rw [htr] at hm
              simp only [List.mem_singleton] at hm
              cases hm
              rw [← Bool.not_eq_true, attemptGood_finished_iff] at hgood_false
              exact absurd ⟨he, ho⟩ hgood_false
          · intro h
            exact absurd h hns
      · have hrw : runStepAux name maxR oc tokObs slCancel (fuel + 1) attempts
            = ([.finished e o], StepReport.success name attempts 0) := by
          simp only [runStepAux, hoc, if_neg hbad]
        push_neg at hbad
        rw [hrw]
        constructor
        · constructor
          · intro _
            exact ⟨e, o, by simp, hbad.2, hbad.1⟩
          · intro _
            rfl
        · intro _
          rw [show (StepReport.success name attempts 0).retries = attempts from rfl, hoc,
            attemptGood_finished_iff]
          exact ⟨hbad.2, hbad.1⟩
    | engineError =>
      have hrw : runStepAux name maxR oc tokObs slCancel (fuel + 1) attempts
          = stepFailCont name maxR tokObs slCancel attempts .engineError
              (runStepAux name maxR oc tokObs slCancel fuel (attempts + 1)) := by
        simp only [runStepAux, hoc]
      rw [hrw]
      rcases stepFailCont_cases name maxR tokObs slCancel attempts .engineError
          (runStepAux name maxR oc tokObs slCancel fuel (attempts + 1)) with hc | ⟨hns, htr⟩
      · rw [hc]
        constructor
        · rw [IH.1]
          simp only [List.mem_cons]
          constructor
          · rintro ⟨e2, o2, hm, he, ho⟩
            exact ⟨e2, o2, Or.inr hm, he, ho⟩
          · rintro ⟨e2, o2, heq | hm, he, ho⟩
            · cases heq
            · exact ⟨e2, o2, hm, he, ho⟩
        · exact IH.2
      · constructor
        · constructor
          · intro h
            exact absurd h hns
          · rintro ⟨e2, o2, hm, he, ho⟩
            rw [htr] at hm
            simp only [List.mem_singleton] at hm
            cases hm
        · intro h
          exact absurd h hns
    | timedOut =>
      have hrw : runStepAux name maxR oc tokObs slCancel (fuel + 1) attempts
          = stepFailCont name maxR tokObs slCancel attempts .timedOut
              (runStepAux name maxR oc tokObs slCancel fuel (attempts + 1)) := by
        simp only [runStepAux, hoc]
      rw [hrw]
      rcases stepFailCont_cases name maxR tokObs slCancel attempts .timedOut
          (runStepAux name maxR oc tokObs slCancel fuel (attempts + 1)) with hc | ⟨hns, htr⟩
      · rw [hc]
        constructor
        · rw [IH.1]
          simp only [List.mem_cons]
          constructor
          · rintro ⟨e2, o2, hm, he, ho⟩
            exact ⟨e2, o2, Or.inr hm, he, ho⟩
          · rintro ⟨e2, o2, heq | hm, he, ho⟩
            · cases heq
            · exact ⟨e2, o2, hm, he, ho⟩
        · exact IH.2
      · constructor
        · constructor
          · intro h
            exact absurd h hns
          · rintro ⟨e2, o2, hm, he, ho⟩
            rw [htr] at hm
            simp only [List.mem_singleton] at hm
            cases hm
        · intro h
          exact absurd h hns

/-- Claim C4: the step executor reports Success iff some attempt of the run
finished with container exit state `exit_code == Some(0)` and
`oom_killed != Some(true)`; the successful attempt is the final one (index
`retries`); and any attempt whose final state has a missing or non-zero
exit code, or `oom_killed == Some(true)`, is a failed attempt. -/
theorem c4_success_iff_good_attempt (name : String) (maxR : Nat)
    (oc : Nat → AttemptOutcome) (tokObs slCancel : Nat → Bool) :
    ((runStepModel name maxR oc tokObs slCancel).2.status = .Success ↔
      ∃ e o, AttemptOutcome.finished e o ∈ (runStepModel name maxR oc tokObs slCancel).1
        ∧ e = some 0 ∧ o ≠ some true)
    ∧ ((runStepModel name maxR oc tokObs slCancel).2.status = .Success →
        attemptGood (oc (runStepModel name maxR oc tokObs slCancel).2.retries) = true)
    ∧ (∀ (e : Option Int) (o : Option Bool), e ≠ some 0 ∨ o = some true →
        attemptGood (.finished e o) = false) := by
  refine ⟨(runStepAux_spec name maxR oc tokObs slCancel (maxR + 1) 0).1,
    (runStepAux_spec name maxR oc tokObs slCancel (maxR + 1) 0).2, ?_⟩
  intro e o h
  rw [← Bool.not_eq_true, attemptGood_finished_iff]
  tauto

/-! ## Stage-loop invariants (claims C1, C3) -/

theorem schedInv_init (stage : Stage) (tok : Bool) : SchedInv stage (initSchedState tok) := by
  refine ⟨rfl, rfl, ?_, ?_, ?_, ?_, ?_, ?_⟩ <;> simp [initSchedState]

theorem schedInv_dispatchStep (stage : Stage) (st : SchedState) (step : Step)
    (hstep : step ∈ stage.steps) (h : SchedInv stage st) :
    SchedInv stage (dispatchStep stage st step) := by
  unfold dispatchStep
  by_cases h1 : step.exploded_name ∈ st.started
  · rw [if_pos h1]
    exact h
  · rw [if_neg h1]
    by_cases h2 : can_start stage step st.completed = true
    · rw [if_pos h2]
      have hnotp : step.exploded_name ∉ st.pending.map (fun s => s.exploded_name) :=
        fun hc => h1 ((h.smem _).mpr (Or.inr hc))
      have hnotc : step.exploded_name ∉ st.completed :=
        fun hc => h1 ((h.smem _).mpr (Or.inl hc))
      refine ⟨?_, h.repNames, ?_, ?_, ?_, ?_, h.cnodup, ?_⟩
      · have := h.counts
        simp only [List.length_append, List.length_cons, List.length_nil]
        omega
      · intro x hx
        rw [List.map_append] at hx
        rcases List.mem_append.mp hx with hold | hnew
        · exact h.disj x hold
        · simp only [List.map_cons, List.map_nil, List.mem_singleton] at hnew
          subst hnew
          exact hnotc
      · rw [List.map_append]
        rw [List.nodup_append]
        refine ⟨h.pnodup, by simp, ?_⟩
        intro x hx
        simp only [List.map_cons, List.map_nil, List.mem_singleton]
        intro hx2
        subst hx2
        exact hnotp hx
      · intro x
        simp only [List.mem_append, List.mem_singleton, List.map_append, List.map_cons,
          List.map_nil, h.smem x]
        tauto
      · rw [List.nodup_append]
        exact ⟨h.snodup, by simp, fun x hx => by
          simp only [List.mem_singleton]
          intro hx2
          subst hx2
          exact h1 hx⟩
      · intro x hx
        rcases List.mem_append.mp hx with hold | hnew
        · exact h.ssub x hold
        · simp only [List.mem_singleton] at hnew
          subst hnew
          exact List.mem_map_of_mem _ hstep
    · rw [if_neg h2]
      exact h

theorem schedInv_dispatchAux (stage : Stage) :
    ∀ (l : List Step) (st : SchedState), (∀ s ∈ l, s ∈ stage.steps) →
      SchedInv stage st → SchedInv stage (dispatchAux stage l st)
  | [], st, _, h => h
  | s :: l, st, hl, h => by
    rw [dispatchAux_cons]
    exact schedInv_dispatchAux stage l _ (fun x hx => hl x (List.mem_cons_of_mem _ hx))
      (schedInv_dispatchStep stage st s (hl s (List.mem_cons_self _ _)) h)

theorem schedInv_dispatch_ready (stage : Stage) (st : SchedState) (h : SchedInv stage st) :
    SchedInv stage (dispatch_ready_steps stage st) :=
  schedInv_dispatchAux stage stage.steps st (fun _ hs => hs) h

theorem schedInv_pending_nil (stage : Stage) (st : SchedState) (h : SchedInv stage st)
    (hlen : st.started.length = st.completed.length) : st.pending = [] := by
  have hc := h.counts
  rw [hlen] at hc
  have : st.pending.length = 0 := by omega
  exact List.length_eq_zero.mp this

/-- At a break point where everything started has completed, the finalize
pass appends only `Skipped` reports: `Failed` reports in the stage report
all come from the loop's received reports. -/
theorem finalize_no_new_failed (stage : Stage) (st : SchedState) (h : SchedInv stage st)
    (hlen : st.started.length = st.completed.length) :
    ∀ r ∈ (finalize_report stage st).step_reports, r.status = .Failed → r ∈ st.reports := by
  have hpnil := schedInv_pending_nil stage st h hlen
  intro r hr hf
  unfold finalize_report at hr
  rcases List.mem_append.mp hr with hold | hextra
  · exact hold
  · exfalso
    rcases List.mem_filterMap.mp hextra with ⟨step, hstep, heq⟩
    by_cases hfin : step.exploded_name ∈ st.reports.map (fun rr => rr.name)
    · rw [if_pos hfin] at heq
      cases heq
    · rw [if_neg hfin] at heq
      by_cases hstarted : step.exploded_name ∈ st.started
      · have hcomp : step.exploded_name ∈ st.completed := by
          rcases (h.smem _).mp hstarted with hc | hp
          · exact hc
          · rw [hpnil] at hp
            simp at hp
        rw [h.repNames] at hfin
        exact hfin hcomp
      · rw [if_neg hstarted] at heq
        cases heq
        simp [StepReport.skipped] at hf

theorem schedInv_receive (stage : Stage) (st : SchedState) (h : SchedInv stage st)
    (p : Step) (ps : List Step) (hp : st.pending = p :: ps)
    (i : Nat) (hi : i < (p :: ps).length)
    (status : StepStatus) (retries : Nat) (tok2 : Bool) :
    SchedInv stage
      { started := st.started
        completed :=
          if ((p :: ps).get ⟨i, hi⟩).exploded_name ∈ st.completed then st.completed
          else st.completed ++ [((p :: ps).get ⟨i, hi⟩).exploded_name]
        reports := st.reports ++
          [{ name := ((p :: ps).get ⟨i, hi⟩).exploded_name, status := status,
             retries := retries, elapsed := 0 }]
        pending := (p :: ps).eraseIdx i
        token := tok2 }
    ∧ (if ((p :: ps).get ⟨i, hi⟩).exploded_name ∈ st.completed then st.completed
       else st.completed ++ [((p :: ps).get ⟨i, hi⟩).exploded_name]).length
        = st.completed.length + 1 := by
  have hmem_step : (p :: ps).get ⟨i, hi⟩ ∈ (p :: ps) := List.get_mem _ _ _
  have hmem_name : ((p :: ps).get ⟨i, hi⟩).exploded_name
      ∈ st.pending.map (fun s => s.exploded_name) := by
    rw [hp]
    exact List.mem_map_of_mem _ hmem_step
  have hnc : ((p :: ps).get ⟨i, hi⟩).exploded_name ∉ st.completed := h.disj _ hmem_name
  have hi' : i < ((p :: ps).map (fun s => s.exploded_name)).length := by
    simpa using hi
  have hname_get : ((p :: ps).map (fun s => s.exploded_name)).get ⟨i, hi'⟩
      = ((p :: ps).get ⟨i, hi⟩).exploded_name := by
    rw [List.get_eq_getElem, List.get_eq_getElem]
    exact List.getElem_map _
  have hnd_names : ((p :: ps).map (fun s => s.exploded_name)).Nodup := by
    rw [← hp]
    exact h.pnodup
  have hnotmem_erased : ((p :: ps).get ⟨i, hi⟩).exploded_name
      ∉ ((p :: ps).map (fun s => s.exploded_name)).eraseIdx i := by
    rw [← hname_get]
    exact get_not_mem_eraseIdx_of_nodup _ hnd_names i hi'
  have mem_names_iff : ∀ x, x ∈ (p :: ps).map (fun s => s.exploded_name) ↔
      x = ((p :: ps).get ⟨i, hi⟩).exploded_name
        ∨ x ∈ ((p :: ps).map (fun s => s.exploded_name)).eraseIdx i := by
    intro x
    constructor
    · intro hx
      by_cases hxe : x = ((p :: ps).get ⟨i, hi⟩).exploded_name
      · exact Or.inl hxe
      · exact Or.inr (mem_eraseIdx_of_mem_ne_get _ i hi' x hx (by rw [hname_get]; exact hxe))
    · rintro (rfl | hx)
      · rw [← hname_get]
        exact List.get_mem _ _ _
      · exact (List.eraseIdx_sublist _ i).subset hx
  rw [if_neg hnc]
  constructor
  · refine ⟨?_, ?_, ?_, ?_, ?_, h.snodup, ?_, h.ssub⟩
    · have hc := h.counts
      rw [hp] at hc
      simp only [List.length_append, List.length_cons, List.length_nil]
      rw [List.length_eraseIdx]
      simp only [hi, if_pos]
      simp only [List.length_cons] at hc ⊢
      omega
    · simp only [List.map_append, List.map_cons, List.map_nil, h.repNames]
    · intro x hx
      rw [map_eraseIdx_comm] at hx
      have hx_names : x ∈ (p :: ps).map (fun s => s.exploded_name) :=
        (List.eraseIdx_sublist _ i).subset hx
      have hx_notc : x ∉ st.completed := by
        apply h.disj
        rw [hp]
        exact hx_names
      have hx_ne : x ≠ ((p :: ps).get ⟨i, hi⟩).exploded_name := by
        intro hxe
        subst hxe
        exact hnotmem_erased hx
      simp only [List.mem_append, List.mem_singleton]
      rintro (hxc | hxe)
      · exact hx_notc hxc
      · exact hx_ne hxe
    · rw [map_eraseIdx_comm]
      exact hnd_names.sublist (List.eraseIdx_sublist _ i)
    · intro x
      have h0 := h.smem x
      rw [hp] at h0
      rw [map_eraseIdx_comm]
      simp only [List.mem_append, List.mem_singleton]
      rw [h0, mem_names_iff x]
      tauto
    · rw [List.nodup_append]
      exact ⟨h.cnodup, by simp, fun x hx => by
        simp only [List.mem_singleton]
        intro hxe
        subst hxe
        exact hnc hx⟩
  · simp

theorem stageLoop_ok_failed_token (stage : Stage) (dOr : Nat → Nat)
    (sOr : Nat → StepStatus) (rOr : Nat → Nat) :
    ∀ (fuel t : Nat) (st : SchedState), SchedInv stage st →
      ((∃ r ∈ st.reports, r.status = .Failed) → st.token = true) →
      ∀ (rep : StageReport) (tok : Bool),
        stageLoop stage dOr sOr rOr fuel t st = .ok (rep, tok) →
        (∃ r ∈ rep.step_reports, r.status = .Failed) → tok = true
  | 0, t, st => by
    intro _ _ rep tok h
    simp [stageLoop] at h
  | fuel + 1, t, st => by
    intro hinv hws rep tok h hfail
    simp only [stageLoop] at h
    set st1 := if st.token = true then st else dispatch_ready_steps stage st with hst1
    have hinv1 : SchedInv stage st1 := by
      rw [hst1]
      by_cases htk : st.token = true
      · rw [if_pos htk]
        exact hinv
      · rw [if_neg htk]
        exact schedInv_dispatch_ready stage st hinv
    have hrep1 : st1.reports = st.reports := by
      rw [hst1]
      by_cases htk : st.token = true
      · rw [if_pos htk]
      · rw [if_neg htk]
        exact dispatchAux_reports stage stage.steps st
    have htok1 : st1.token = st.token := by
      rw [hst1]
      by_cases htk : st.token = true
      · rw [if_pos htk]
      · rw [if_neg htk]
        exact dispatchAux_token stage stage.steps st
    have hws1 : (∃ r ∈ st1.reports, r.status = .Failed) → st1.token = true := by
      rw [hrep1, htok1]
      exact hws
    split at h
    next out hchk =>
      subst h
      unfold stageCheck at hchk
      split at hchk
      next hlen =>
        split at hchk
        · simp only [Option.some.injEq, Except.ok.injEq, Prod.mk.injEq] at hchk
          obtain ⟨hrepEq, htokEq⟩ := hchk
          rw [← hrepEq] at hfail
          obtain ⟨r, hr, hf⟩ := hfail
          have hr_old : r ∈ st1.reports := finalize_no_new_failed stage st1 hinv1 hlen r hr hf
          rw [← htokEq]
          exact hws1 ⟨r, hr_old, hf⟩
        · simp at hchk
      next hlen => simp at hchk
    next hchk =>
      split at h
      next hpend =>
        exfalso
        have hcounts := hinv1.counts
        rw [hpend] at hcounts
        simp only [List.length_nil, Nat.add_zero] at hcounts
        unfold stageCheck at hchk
        rw [if_pos hcounts] at hchk
        split at hchk <;> simp at hchk
      next p ps hpend =>
        obtain ⟨hinv2, _⟩ := schedInv_receive stage st1 hinv1 p ps hpend
          (dOr t % (p :: ps).length) (Nat.mod_lt _ (Nat.succ_pos _))
          (sOr t) (rOr t) (st1.token || decide (sOr t = .Failed))
        refine stageLoop_ok_failed_token stage dOr sOr rOr fuel (t + 1) _ hinv2 ?_ rep tok h hfail
        rintro ⟨r, hr, hf⟩
        rcases List.mem_append.mp hr with hold | hnew
        · have := hws1 ⟨r, hold, hf⟩
          simp [this]
        · simp only [List.mem_singleton] at hnew
          subst hnew
          simp only at hf
          simp [hf]

theorem stageLoop_error_deadlock (stage : Stage) (dOr : Nat → Nat)
    (sOr : Nat → StepStatus) (rOr : Nat → Nat) :
    ∀ (fuel t : Nat) (st : SchedState), SchedInv stage st →
      stage.steps.length + 1 ≤ fuel + st.completed.length →
      ∀ e, stageLoop stage dOr sOr rOr fuel t st = .error e → e = deadlockMsg stage.name
  | 0, t, st => by
    intro hinv hbound e h
    exfalso
    have h1 : st.completed.length ≤ st.started.length :=
      (List.subperm_of_subset hinv.cnodup (fun x hx => (hinv.smem x).mpr (Or.inl hx))).length_le
    have h2 : st.started.length ≤ stage.steps.length := by
      have := (List.subperm_of_subset hinv.snodup hinv.ssub).length_le
      simpa using this
    omega
  | fuel + 1, t, st => by
    intro hinv hbound e h
    simp only [stageLoop] at h
    set st1 := if st.token = true then st else dispatch_ready_steps stage st with hst1
    have hinv1 : SchedInv stage st1 := by
      rw [hst1]
      by_cases htk : st.token = true
      · rw [if_pos htk]
        exact hinv
      · rw [if_neg htk]
        exact schedInv_dispatch_ready stage st hinv
    have hcmp1 : st1.completed = st.completed := by
      rw [hst1]
      by_cases htk : st.token = true
      · rw [if_pos htk]
      · rw [if_neg htk]
        exact dispatchAux_completed stage stage.steps st
    split at h
    next out hchk =>
      subst h
      unfold stageCheck at hchk
      split at hchk
      next hlen =>
        split at hchk
        · simp at hchk
        · simp only [Option.some.injEq, Except.error.injEq] at hchk
          exact hchk.symm
      next hlen => simp at hchk
    next hchk =>
      split at h
      next hpend => simp at h
      next p ps hpend =>
        obtain ⟨hinv2, hlen2⟩ := schedInv_receive stage st1 hinv1 p ps hpend
          (dOr t % (p :: ps).length) (Nat.mod_lt _ (Nat.succ_pos _))
          (sOr t) (rOr t) (st1.token || decide (sOr t = .Failed))
        refine stageLoop_error_deadlock stage dOr sOr rOr fuel (t + 1) _ hinv2 ?_ e h
        rw [hlen2, hcmp1]
        omega

/-- `stageRun` (with its `total + 1` fuel) can only fail with the deadlock
error, which names the stage. -/
theorem stageRun_error_deadlock (stage : Stage) (dOr : Nat → Nat)
    (sOr : Nat → StepStatus) (rOr : Nat → Nat) (tok0 : Bool) (e : String)
    (h : stageRun stage dOr sOr rOr tok0 = .error e) : e = deadlockMsg stage.name := by
  refine stageLoop_error_deadlock stage dOr sOr rOr (stage.steps.length + 1) 0
    (initSchedState tok0) (schedInv_init stage tok0) ?_ e h
  simp [initSchedState]

theorem stageRun_failed_token (stage : Stage) (dOr : Nat → Nat) (sOr : Nat → StepStatus)
    (rOr : Nat → Nat) (rep : StageReport) (tok : Bool)
    (h : stageRun stage dOr sOr rOr false = .ok (rep, tok))
    (hf : ∃ r ∈ rep.step_reports, r.status = .Failed) : tok = true := by
  refine stageLoop_ok_failed_token stage dOr sOr rOr (stage.steps.length + 1) 0
    (initSchedState false) (schedInv_init stage false) ?_ rep tok h hf
  rintro ⟨r, hr, _⟩
  simp [initSchedState] at hr

/-! ## Pipeline-level lemmas (claims C1, C3, C5) -/

theorem skip_stage_all_skipped (stage : Stage) :
    ∀ r ∈ (skip_stage stage).step_reports, r.status = .Skipped := by
  intro r hr
  simp only [skip_stage, List.mem_map] at hr
  obtain ⟨s, _, rfl⟩ := hr
  rfl

theorem stageReport_failed_not_success (sr : StageReport)
    (h : ∃ r ∈ sr.step_reports, r.status = .Failed) : sr.is_success = false := by
  obtain ⟨r, hr, hf⟩ := h
  unfold StageReport.is_success
  exact List.all_eq_false.mpr ⟨r, hr, by simp [hf]⟩

theorem pipelineReport_failed_not_success (rep : PipelineReport)
    (h : ∃ sr ∈ rep.stage_reports, ∃ r ∈ sr.step_reports, r.status = .Failed) :
    rep.is_success = false := by
  obtain ⟨sr, hsr, r, hr, hf⟩ := h
  unfold PipelineReport.is_success
  refine List.all_eq_false.mpr ⟨r, ?_, by simp [hf]⟩
  rw [List.mem_flatten]
  exact ⟨sr.step_reports, List.mem_map_of_mem _ hsr, hr⟩

theorem pipelineGo_true_skipped (pullOk : String → Bool) (dOr : Nat → Nat → Nat)
    (sOr : Nat → Nat → StepStatus) (rOr : Nat → Nat → Nat) :
    ∀ (l : List Stage) (i : Nat) (rs : List StageReport),
      pipelineGo pullOk dOr sOr rOr l i true = .ok rs →
      ∀ sr ∈ rs, ∀ r ∈ sr.step_reports, r.status = .Skipped
  | [], i, rs, h => by
    simp only [pipelineGo, Except.ok.injEq] at h
    subst h
    intro sr hsr
    simp at hsr
  | stage :: rest, i, rs, h => by
    simp only [pipelineGo, if_pos] at h
    split at h
    next rs' hrec =>
      simp only [Except.ok.injEq] at h
      subst h
      intro sr hsr
      rcases List.mem_cons.mp hsr with rfl | hsr'
      · exact skip_stage_all_skipped stage
      · exact pipelineGo_true_skipped pullOk dOr sOr rOr rest (i + 1) rs' hrec sr hsr'
    next e hrec => simp at h

theorem pipelineGo_later_skipped (pullOk : String → Bool) (dOr : Nat → Nat → Nat)
    (sOr : Nat → Nat → StepStatus) (rOr : Nat → Nat → Nat) :
    ∀ (l : List Stage) (i : Nat) (tok : Bool) (rs : List StageReport),
      pipelineGo pullOk dOr sOr rOr l i tok = .ok rs →
      ∀ (a b : Nat) (sra srb : StageReport),
        a < b → rs.get? a = some sra → rs.get? b = some srb →
        (∃ r ∈ sra.step_reports, r.status = .Failed) →
        ∀ r ∈ srb.step_reports, r.status = .Skipped
  | [], i, tok, rs, h => by
    intro a b sra srb hab ha hb hfail
    simp only [pipelineGo, Except.ok.injEq] at h
    subst h
    simp at ha
  | stage :: rest, i, tok, rs, h => by
    intro a b sra srb hab ha hb hfail
    by_cases htok : tok = true
    · subst htok
      exact fun r hr => pipelineGo_true_skipped pullOk dOr sOr rOr (stage :: rest) i rs h
        srb (List.get?_mem hb) r hr
    · rw [Bool.not_eq_true] at htok
      subst htok
      simp only [pipelineGo, Bool.false_eq_true, if_false] at h
      split at h
      next e hpp => simp at h
      next hpp =>
        split at h
        next e hsr => simp at h
        next rep' tokOut hsr =>
          split at h
          next rs' hrec =>
            simp only [Except.ok.injEq] at h
            subst h
            cases a with
            | zero =>
              simp only [List.get?_cons_zero, Option.some.injEq] at ha
              subst ha
              have hns : rep'.is_success = false := stageReport_failed_not_success rep' hfail
              have htok2 : (tokOut || !rep'.is_success) = true := by
                rw [hns]
                simp
              rw [htok2] at hrec
              cases b with
              | zero => omega
              | succ b' =>
                simp only [List.get?_cons_succ] at hb
                exact fun r hr => pipelineGo_true_skipped pullOk dOr sOr rOr rest (i + 1)
                  rs' hrec srb (List.get?_mem hb) r hr
            | succ a' =>
              cases b with
              | zero => omega
              | succ b' =>
                simp only [List.get?_cons_succ] at ha hb
                exact pipelineGo_later_skipped pullOk dOr sOr rOr rest (i + 1) _ rs' hrec
                  a' b' sra srb (by omega) ha hb hfail
          next e hrec => simp at h

theorem tryJoinAll_map_ok {α β : Type} (f : β → α) :
    ∀ (l : List β), tryJoinAll (l.map (fun b => Except.ok (f b))) = .ok (l.map f)
  | [] => rfl
  | b :: l => by
    simp only [List.map_cons, tryJoinAll, tryJoinAll_map_ok f l]

/-! ## Claim C5 — image pull failure is not fatal -/

/-- Claim C5 is a code bug: `pre_pull_images` spawns the pull tasks and then
`try_join_all(pull_tasks).await?`, but `try_join_all` over `JoinHandle`s
only fails when a *join* fails (task panic); the pull results carried as
the tasks' values are discarded, so `pre_pull_images` always returns `Ok`
and the stage is scheduled even when every pull failed — contradicting the
spec's "failure is fatal to the run".  The concrete conjuncts evaluate the
pipeline with a pull oracle that fails on the fixture's only image: the run
proceeds and returns a report instead of aborting. -/
theorem c5_pull_failure_not_fatal :
    (∀ (pullOk : String → Bool) (stage : Stage), pre_pull_images pullOk stage = .ok ())
    ∧ pullC5 "img" = false
    ∧ pipelineRun { stages := [stageC5] } pullC5 (fun _ _ => 0) (fun _ _ => .Failed)
        (fun _ _ => 0)
      = .ok { stage_reports := [{ step_reports := [StepReport.failed "a" 0 0] }] } := by
  refine ⟨?_, by decide, by decide⟩
  intro pullOk stage
  unfold pre_pull_images
  split
  · rfl
  · rw [tryJoinAll_map_ok]

/-! ## Claim C1 — a Failed step cancels the run and skips later stages -/

/-- Claim C1: (i) a `PipelineReport` containing a `Failed` step report is
not a success; (ii) a stage run (entered with the token unset, as the
orchestrator guarantees) that returns a report containing a `Failed` step
returns with the shared cancellation token set — the token is set at the
delivery of the `Failed` report (`token.cancel()` in `StepRunner::run`) and
is never cleared, and the finalize pass cannot introduce a `Failed` report;
(iii) in any successful pipeline run, every stage strictly after a stage
whose report contains a `Failed` step reports all of its steps as
`Skipped`. -/
theorem c1_failed_implies_cancel_and_skips :
    (∀ (rep : PipelineReport),
       (∃ sr ∈ rep.stage_reports, ∃ r ∈ sr.step_reports, r.status = .Failed) →
       rep.is_success = false)
    ∧ (∀ (stage : Stage) (dOr : Nat → Nat) (sOr : Nat → StepStatus) (rOr : Nat → Nat)
         (rep : StageReport) (tok : Bool),
        stageRun stage dOr sOr rOr false = .ok (rep, tok) →
        (∃ r ∈ rep.step_reports, r.status = .Failed) → tok = true)
    ∧ (∀ (p : Pipeline) (pullOk : String → Bool) (dOr : Nat → Nat → Nat)
         (sOr : Nat → Nat → StepStatus) (rOr : Nat → Nat → Nat) (rep : PipelineReport),
        pipelineRun p pullOk dOr sOr rOr = .ok rep →
        ∀ (a b : Nat) (sra srb : StageReport), a < b →
          rep.stage_reports.get? a = some sra → rep.stage_reports.get? b = some srb →
          (∃ r ∈ sra.step_reports, r.status = .Failed) →
          ∀ r ∈ srb.step_reports, r.status = .Skipped) := by
  refine ⟨pipelineReport_failed_not_success, stageRun_failed_token, ?_⟩
  intro p pullOk dOr sOr rOr rep h a b sra srb hab ha hb hfail
  unfold pipelineRun at h
  split at h
  next rs hgo =>
    simp only [Except.ok.injEq] at h
    subst h
    exact pipelineGo_later_skipped pullOk dOr sOr rOr p.stages 0 false rs hgo
      a b sra srb hab ha hb hfail
  next e hgo => simp at h

theorem c1_witness :
    repC1.is_success = false ∧ (StepReport.skipped "b").status = .Skipped := by
  constructor
  · exact c1_failed_implies_cancel_and_skips.1 repC1 (by decide)
  · exact c1_failed_implies_cancel_and_skips.2.2 pC1 (fun _ => true) (fun _ _ => 0)
      sOrC1 (fun _ _ => 0) repC1 (by decide) 0 1
      { step_reports := [StepReport.failed "a" 0 0] }
      { step_reports := [StepReport.skipped "b"] }
      (by omega) (by decide) (by decide) (by decide) (StepReport.skipped "b") (by decide)

/-! ## Claim C3 — deadlock detection -/

/-- Claim C3: a stage run fails only with the deadlock error, which names
the stage; the loop's decision point produces that error exactly when the
token is unset, every started step has delivered its report
(`|started| = |completed|`, equivalently under the loop invariants: the
started set equals the completed set), and not all steps of the stage have
been started; and on the spec's S7 fixture (`x` needs `y`, `y` needs `x`)
the compiled pipeline's run returns the deadlock error naming stage `"s"`
— so no step is reported at all, in particular none as Success — and the
(spec-modelled) process exit code is non-zero. -/
theorem c3_deadlock_characterization :
    (∀ (stage : Stage) (dOr : Nat → Nat) (sOr : Nat → StepStatus) (rOr : Nat → Nat)
       (tok0 : Bool) (e : String),
        stageRun stage dOr sOr rOr tok0 = .error e → e = deadlockMsg stage.name)
    ∧ (∀ (stage : Stage) (st : SchedState),
        (∃ e, stageCheck stage st = some (.error e)) ↔
          (st.token = false ∧ st.started.length = st.completed.length
            ∧ st.started.length ≠ stage.steps.length))
    ∧ (∀ (stage : Stage) (st : SchedState) (e : String),
        stageCheck stage st = some (.error e) → e = deadlockMsg stage.name)
    ∧ rawC3.compile = .ok pC3
    ∧ pipelineRun pC3 (fun _ => true) (fun _ _ => 0) (fun _ _ => .Success) (fun _ _ => 0)
        = .error (deadlockMsg "s")
    ∧ processExitCode (pipelineRun pC3 (fun _ => true) (fun _ _ => 0)
        (fun _ _ => .Success) (fun _ _ => 0)) = 1 := by
  refine ⟨stageRun_error_deadlock, ?_, ?_, by decide, by decide, by decide⟩
  · intro stage st
    constructor
    · rintro ⟨e, hchk⟩
      unfold stageCheck at hchk
      split at hchk
      next hlen =>
        split at hchk
        · simp at hchk
        next hcond =>
          simp only [Bool.or_eq_true, decide_eq_true_eq, not_or] at hcond
          obtain ⟨htok, hne⟩ := hcond
          exact ⟨Bool.not_eq_true _ ▸ htok, hlen, hne⟩
      next hlen => simp at hchk
    · rintro ⟨htok, hlen, hne⟩
      unfold stageCheck
      rw [if_pos hlen, if_neg (by simp [htok, hne])]
      exact ⟨_, rfl⟩
  · intro stage st e hchk
    unfold stageCheck at hchk
    split at hchk
    · split at hchk
      · simp at hchk
      · simp only [Option.some.injEq, Except.error.injEq] at hchk
        exact hchk.symm
    · simp at hchk

theorem c3_witness :
    deadlockMsg "s" = deadlockMsg "s"
    ∧ (∃ e, stageCheck stageXY (initSchedState false) = some (.error e)) := by
  constructor
  · exact c3_deadlock_characterization.1 stageXY (fun _ => 0) (fun _ => .Success)
      (fun _ => 0) false (deadlockMsg "s") (by decide)
  · exact (c3_deadlock_characterization.2.1 stageXY (initSchedState false)).mpr (by decide)

theorem c4_witness :
    attemptGood (AttemptOutcome.finished (some 1) none) = false :=
  (c4_success_iff_good_attempt "w" 0 (fun _ => .engineError) (fun _ => false)
    (fun _ => false)).2.2 (some 1) none (by decide)
